import Mathlib

/-!
Verification of the MoWrap structured-text engines: the INCAR-style config
codec (`src/mav/text_helpers.py`) and the Slurm batch-script editor
(`src/mav/core/slurm_helper.py`).  The Python functions are shallowly
embedded as executable Lean functions operating on `List Char` / `String`,
with Python `dict` assignment modelled as in-place update on association
lists.  Python string primitives (`strip`, `splitlines`, `startswith`,
`partition`, `split("=", 1)`, `shlex.split`) are reproduced character by
character; `str.splitlines` uses the full set of line-boundary characters
and `str.strip` the whitespace set of CPython.  The regular-expression
matchers of the script editor are embedded as direct scanners that agree
with the Python `re` patterns on lines containing no newline character
(real script lines never contain one, since they come from `splitlines`).
-/

namespace MoWrap

/-- Whitespace characters stripped by Python `str.strip()` (CPython's
`Py_UNICODE_ISSPACE` set). -/
def pyIsSpace (c : Char) : Bool :=
  [' ', '\t', '\n', '\r', '\x0b', '\x0c', '\x1c', '\x1d', '\x1e', '\x1f',
   '\x85', '\xa0', '\u1680', '\u2000', '\u2001', '\u2002', '\u2003', '\u2004',
   '\u2005', '\u2006', '\u2007', '\u2008', '\u2009', '\u200a', '\u2028',
   '\u2029', '\u202f', '\u205f', '\u3000'].contains c

/-- Line-boundary characters of Python `str.splitlines()`. -/
def isLineBreak (c : Char) : Bool :=
  ['\n', '\r', '\x0b', '\x0c', '\x1c', '\x1d', '\x1e',
   '\x85', '\u2028', '\u2029'].contains c

/-- Whitespace set of `shlex` (`shlex.whitespace = " \t\r\n"`). -/
def shlexIsWs (c : Char) : Bool :=
  [' ', '\t', '\r', '\n'].contains c

/-- Single-character membership test, Python's `c in s` for a 1-char `c`. -/
def containsChar (s : String) (c : Char) : Bool :=
  s.data.contains c

/-- Python `s.startswith(pre)`. -/
def pyStartsWith (s pre : String) : Bool :=
  pre.data.isPrefixOf s.data

/-- Python `s.endswith(suf)`. -/
def pyEndsWith (s suf : String) : Bool :=
  suf.data.isSuffixOf s.data

/-- Left strip on character lists. -/
def lstripL (l : List Char) : List Char :=
  l.dropWhile pyIsSpace

/-- Right strip on character lists. -/
def rstripL (l : List Char) : List Char :=
  (l.reverse.dropWhile pyIsSpace).reverse

/-- Python `s.strip()`. -/
def pyStrip (s : String) : String :=
  ⟨rstripL (lstripL s.data)⟩

/-- Python `s.rstrip()`. -/
def pyRstrip (s : String) : String :=
  ⟨rstripL s.data⟩

/-- Python `s[:-1]`. -/
def dropLastChar (s : String) : String :=
  ⟨s.data.dropLast⟩

/-- Python `str.splitlines()` on character lists: split at every
line-boundary character, treating `\r\n` as a single boundary and not
producing a final empty segment for a trailing boundary. -/
def splitlinesL : List Char → List (List Char)
  | [] => []
  | '\r' :: '\n' :: rest => [] :: splitlinesL rest
  | c :: rest =>
    if isLineBreak c then
      [] :: splitlinesL rest
    else
      match splitlinesL rest with
      | [] => [[c]]
      | l :: ls => (c :: l) :: ls

/-- Python `text.splitlines()`. -/
def splitlines (s : String) : List String :=
  (splitlinesL s.data).map (fun l => ⟨l⟩)

/-- Python `"\\n".join(lines)`. -/
def joinNl : List String → String
  | [] => ""
  | [l] => l
  | l :: l2 :: rest => l ++ "\n" ++ joinNl (l2 :: rest)

/-- Python `list.insert(n, a)` (clamping, like Python). -/
def insertAt {α : Type} (n : Nat) (a : α) (l : List α) : List α :=
  l.take n ++ a :: l.drop n

/-- Python `dict` assignment `d[k] = v` on an order-preserving association
list: overwrite in place if the key exists, else append. -/
def dictSet {β : Type} (d : List (String × β)) (k : String) (v : β) :
    List (String × β) :=
  if d.any (fun p => p.1 == k) then
    d.map (fun p => if p.1 == k then (k, v) else p)
  else
    d ++ [(k, v)]

/-! ## Config codec (`text_helpers.py`) -/

/-- One parsed config entry: `result[name] = {"value": ..., "comment": ...}`. -/
structure ConfigEntry where
  value : String
  comment : String
deriving DecidableEq, Repr

/-- Core of `_split_comment`: scan tracking quote parity; at the first `#`
or `!` outside quotes return the prefix and the remainder after the marker. -/
def splitCommentL : List Char → Bool → List Char × Option (List Char)
  | [], _ => ([], none)
  | c :: rest, inQ =>
    if c = '"' then
      let r := splitCommentL rest (!inQ)
      (c :: r.1, r.2)
    else if (c = '#' ∨ c = '!') ∧ inQ = false then
      ([], some rest)
    else
      let r := splitCommentL rest inQ
      (c :: r.1, r.2)

/-- `_split_comment(line)`: `(code, stripped comment)`, or `(line, "")` when
no comment marker occurs outside quotes. -/
def splitComment (line : String) : String × String :=
  match splitCommentL line.data false with
  | (code, some rest) => (⟨code⟩, pyStrip ⟨rest⟩)
  | (_, none) => (line, "")

/-- Core of `_split_statements`: split at `;` outside quotes, always
returning at least one (possibly empty) segment. -/
def splitStatementsL : List Char → Bool → List (List Char)
  | [], _ => [[]]
  | c :: rest, inQ =>
    if c = '"' then
      match splitStatementsL rest (!inQ) with
      | [] => [[c]]
      | l :: ls => (c :: l) :: ls
    else if c = ';' ∧ inQ = false then
      [] :: splitStatementsL rest inQ
    else
      match splitStatementsL rest inQ with
      | [] => [[c]]
      | l :: ls => (c :: l) :: ls

/-- `_split_statements(code)`. -/
def splitStatements (code : String) : List String :=
  (splitStatementsL code.data false).map (fun l => ⟨l⟩)

/-- Python `stmt.split("=", 1)` restricted to its two components. -/
def splitFirstEq (s : String) : String × String :=
  (⟨s.data.takeWhile (fun c => !(c == '='))⟩,
   ⟨(s.data.dropWhile (fun c => !(c == '='))).tail⟩)

/-- Python `s.partition('"')` restricted to the before/after components. -/
def partitionQuote (s : String) : String × String :=
  (⟨s.data.takeWhile (fun c => !(c == '"'))⟩,
   ⟨(s.data.dropWhile (fun c => !(c == '"'))).tail⟩)

/-- The continuation-merge loop of `parse_config_text` (lines 49–70):
`st` is the pending `continuation` value. -/
def mergeCont : List String → Option String → List String
  | [], none => []
  | [], some c => [c]
  | raw :: rest, st =>
    let stripped := pyRstrip raw
    match st with
    | some c =>
      if pyEndsWith stripped "\\" then
        mergeCont rest (some (c ++ " " ++ pyStrip (dropLastChar stripped)))
      else
        (c ++ " " ++ pyStrip raw) :: mergeCont rest none
    | none =>
      if pyEndsWith stripped "\\" then
        mergeCont rest (some (dropLastChar stripped))
      else
        raw :: mergeCont rest none

/-- Logical lines of a config text: raw lines after continuation merging. -/
def logicalLines (text : String) : List String :=
  mergeCont (splitlines text) none

/-- Mutable state of the `parse_config_text` main loop. -/
structure PState where
  result : List (String × ConfigEntry)
  inMulti : Bool
  curName : Option String
  curValue : List String
  curComment : String
deriving DecidableEq, Repr

/-- `_commit_multiline`: commit the accumulated value under the remembered
name when that name is truthy (not `None`, not empty), then reset. -/
def commitMulti (st : PState) : PState :=
  let res :=
    match st.curName with
    | some n =>
      if n ≠ "" then
        dictSet st.result n ⟨String.intercalate "\n" st.curValue, st.curComment⟩
      else st.result
    | none => st.result
  { st with result := res, curName := none, curValue := [], curComment := "" }

/-- One statement of a logical line (`parse_config_text` lines 115–140);
`comment` is the line's trailing comment, `lastIdx` the index of the final
statement (only it receives the comment). -/
def processStmt (comment : String) (lastIdx : Nat) (st : PState)
    (idxStmt : Nat × String) : PState :=
  let stmt := pyStrip idxStmt.2
  if stmt = "" ∨ containsChar stmt '=' = false then st
  else
    let np := splitFirstEq stmt
    let name := pyStrip np.1
    let value := pyStrip np.2
    let stmtComment := if idxStmt.1 = lastIdx then comment else ""
    if pyStartsWith value "\"" then
      let rest : String := ⟨value.data.tail⟩
      if containsChar rest '"' then
        let va := partitionQuote rest
        let extra := (splitComment va.2).2
        let final := if stmtComment ≠ "" then stmtComment else extra
        { st with result := dictSet st.result name ⟨va.1, final⟩ }
      else
        { st with inMulti := true, curName := some name,
                  curComment := stmtComment,
                  curValue := if rest ≠ "" then [rest] else st.curValue }
    else
      { st with result := dictSet st.result name ⟨value, stmtComment⟩ }

/-- One logical line of the `parse_config_text` main loop (lines 90–140). -/
def processLine (st : PState) (line : String) : PState :=
  let stripped := pyStrip line
  if st.inMulti then
    if containsChar stripped '"' then
      let ba := partitionQuote stripped
      let st1 := { st with curValue := st.curValue ++ [ba.1] }
      let extra := (splitComment ba.2).2
      let st2 := if extra ≠ "" then { st1 with curComment := extra } else st1
      { commitMulti st2 with inMulti := false }
    else
      { st with curValue := st.curValue ++ [stripped] }
  else
    if stripped = "" ∨ pyStartsWith stripped "#" ∨ pyStartsWith stripped "!" then
      st
    else if containsChar stripped '=' = false then
      st
    else
      let cc := splitComment stripped
      let stmts := splitStatements cc.1
      stmts.enum.foldl (processStmt cc.2 (stmts.length - 1)) st

/-- `parse_config_text(text)`. -/
def parseConfigText (text : String) : List (String × ConfigEntry) :=
  let st := (logicalLines text).foldl processLine ⟨[], false, none, [], ""⟩
  if st.inMulti then (commitMulti st).result else st.result

/-- Lines emitted by `config_dict_to_text` for one entry. -/
def entryLines (name : String) (e : ConfigEntry) : List String :=
  if containsChar e.value '\n' then
    (name ++ " = \"") :: splitlines e.value ++
      [if pyStrip e.comment ≠ "" then "\"" ++ "  # " ++ pyStrip e.comment
       else "\""]
  else
    [name ++ " = " ++ e.value ++
      (if pyStrip e.comment ≠ "" then "  # " ++ pyStrip e.comment else "")]

/-- `config_dict_to_text(config)`. -/
def configDictToText (config : List (String × ConfigEntry)) : String :=
  joinNl ((config.map (fun p => entryLines p.1 p.2)).flatten)

/-! ## Slurm script editor (`slurm_helper.py`)

A `SlurmScript` is its list of lines.  `to_string` / `from_text`: -/

/-- `SlurmScript.to_string`: lines joined by newlines plus a trailing one. -/
def slurmToString (lines : List String) : String :=
  joinNl lines ++ "\n"

/-- `SlurmScript.from_text`: split the text into lines. -/
def slurmFromText (text : String) : List String :=
  splitlines text

/-- The canonical rendering of a directive line inside `set_directive`. -/
def renderDirective (name : String) (value : Option String) : String :=
  match value with
  | none => "#SBATCH --" ++ name
  | some v => "#SBATCH --" ++ name ++ "=" ++ v

/-- Remove an explicit prefix from a character list, or fail. -/
def stripPrefixL : List Char → List Char → Option (List Char)
  | [], s => some s
  | _, [] => none
  | p :: ps, c :: cs => if p = c then stripPrefixL ps cs else none

/-- Shared head of the `#SBATCH` regexes: consume `#SBATCH`, at least one
whitespace character, then `--`; return the remainder. -/
def directiveTail (s : List Char) : Option (List Char) :=
  match stripPrefixL "#SBATCH".data s with
  | none => none
  | some r =>
    match r with
    | [] => none
    | c :: r2 =>
      if pyIsSpace c then stripPrefixL ['-', '-'] (r2.dropWhile pyIsSpace)
      else none

/-- The name/value part of the `list_directives` regex
`^#SBATCH\s+--([^=\s]+)(?:=(.*))?\s*$` applied after `--`. -/
def dirNameValueTail (r : List Char) : Option (String × Option String) :=
  let nm := r.takeWhile (fun c => !(c == '=' || pyIsSpace c))
  if nm.isEmpty then none
  else
    let t := r.dropWhile (fun c => !(c == '=' || pyIsSpace c))
    if t.isEmpty then some (⟨nm⟩, none)
    else if t.head? == some '=' then some (⟨nm⟩, some ⟨t.tail⟩)
    else if t.all pyIsSpace then some (⟨nm⟩, none)
    else none

/-- `list_directives`' per-line regex match (on newline-free lines). -/
def directiveNameValue (s : String) : Option (String × Option String) :=
  match directiveTail s.data with
  | none => none
  | some r => dirNameValueTail r

/-- `set_directive`'s regex `^#SBATCH\s+--<name>(?:=.*)?\s*$` (on
newline-free lines). -/
def matchesDirectivePattern (name : String) (s : String) : Bool :=
  match directiveTail s.data with
  | none => false
  | some r =>
    match stripPrefixL name.data r with
    | none => false
    | some t => t.isEmpty || t.head? == some '=' || t.all pyIsSpace

/-- One line of the `list_directives` loop. -/
def ldStep (acc : List (String × Option String)) (l : String) :
    List (String × Option String) :=
  match directiveNameValue (pyStrip l) with
  | none => acc
  | some nv => dictSet acc nv.1 nv.2

/-- `list_directives()`: ordered mapping, later occurrences overwriting. -/
def listDirectives (lines : List String) : List (String × Option String) :=
  lines.foldl ldStep []

/-- The scanning loop of `set_directive`: replace the first line whose
stripped form matches, or report that none matched. -/
def setDirectiveGo (pat : String → Bool) (newLine : String) :
    List String → Option (List String)
  | [] => none
  | l :: rest =>
    if pat (pyStrip l) then some (newLine :: rest)
    else (setDirectiveGo pat newLine rest).map (fun ls => l :: ls)

/-- Index of the last line whose stripped form starts with `#SBATCH`. -/
def lastSbatchIdx : List String → Option Nat
  | [] => none
  | l :: rest =>
    match lastSbatchIdx rest with
    | some j => some (j + 1)
    | none => if pyStartsWith (pyStrip l) "#SBATCH" then some 0 else none

/-- The insertion index of `set_directive` when no line matched: after the
last `#SBATCH` line, else after a shebang first line, else at the top. -/
def insertIdxFor (lines : List String) : Nat :=
  match lastSbatchIdx lines with
  | some j => j + 1
  | none =>
    match lines with
    | [] => 0
    | l0 :: _ => if pyStartsWith l0 "#!" then 1 else 0

/-- `SlurmScript.set_directive(name, value)`. -/
def setDirective (lines : List String) (name : String)
    (value : Option String) : List String :=
  let newLine := renderDirective name value
  match setDirectiveGo (fun s => matchesDirectivePattern name s) newLine lines with
  | some ls => ls
  | none => insertAt (insertIdxFor lines) newLine lines

/-! ### `shlex.split` (posix mode, whitespace_split, no comments) -/

/-- State of the `shlex` tokenizer: between tokens, inside a word, inside a
quote, or just after a backslash (remembering where to return). -/
inductive ShState where
  | start
  | word
  | inQuote (q : Char)
  | escWord
  | escQuote (q : Char)
deriving DecidableEq, Repr

/-- The `shlex.read_token` state machine, specialised to
`posix=True, whitespace_split=True, comments=False`: `tok` is the token
being accumulated, `quoted` records whether it saw a quote, `acc` the
finished tokens. -/
def shlexGo : List Char → ShState → List Char → Bool → List String →
    Except String (List String)
  | [], .start, _, _, acc => .ok acc
  | [], .word, tok, quoted, acc =>
    if tok.isEmpty = false ∨ quoted = true then .ok (acc ++ [⟨tok⟩]) else .ok acc
  | [], .inQuote _, _, _, _ => .error "No closing quotation"
  | [], .escWord, _, _, _ => .error "No escaped character"
  | [], .escQuote _, _, _, _ => .error "No escaped character"
  | c :: cs, .start, tok, quoted, acc =>
    if shlexIsWs c then shlexGo cs .start tok quoted acc
    else if c = '\'' ∨ c = '"' then shlexGo cs (.inQuote c) tok true acc
    else if c = '\\' then shlexGo cs .escWord tok quoted acc
    else shlexGo cs .word (tok ++ [c]) quoted acc
  | c :: cs, .word, tok, quoted, acc =>
    if shlexIsWs c then
      if tok.isEmpty = false ∨ quoted = true then
        shlexGo cs .start [] false (acc ++ [⟨tok⟩])
      else shlexGo cs .start [] false acc
    else if c = '\'' ∨ c = '"' then shlexGo cs (.inQuote c) tok true acc
    else if c = '\\' then shlexGo cs .escWord tok quoted acc
    else shlexGo cs .word (tok ++ [c]) quoted acc
  | c :: cs, .inQuote q, tok, quoted, acc =>
    if c = q then shlexGo cs .word tok quoted acc
    else if q = '"' ∧ c = '\\' then shlexGo cs (.escQuote q) tok quoted acc
    else shlexGo cs (.inQuote q) (tok ++ [c]) quoted acc
  | c :: cs, .escWord, tok, quoted, acc => shlexGo cs .word (tok ++ [c]) quoted acc
  | c :: cs, .escQuote q, tok, quoted, acc =>
    if c ≠ q ∧ c ≠ '\\' then shlexGo cs (.inQuote q) (tok ++ ['\\', c]) quoted acc
    else shlexGo cs (.inQuote q) (tok ++ [c]) quoted acc

/-- `shlex.split(s)`: token list, or the `ValueError` message. -/
def shlexSplit (s : String) : Except String (List String) :=
  shlexGo s.data .start [] false []

/-- `SlurmScript._set_option_tokens(tokens, flag, value)`. -/
def setOptionTokens (tokens : List String) (flag value : String) :
    List String :=
  match tokens.findIdx? (fun t => t == flag || pyStartsWith t (flag ++ "=")) with
  | some i =>
    if (tokens.get? i == some flag) &&
        (match tokens.get? (i + 1) with
         | some nxt => !pyStartsWith nxt "-"
         | none => false) then
      tokens.set (i + 1) value
    else
      tokens.set i (flag ++ "=" ++ value)
  | none =>
    let ip :=
      match (tokens.drop 1).findIdx? (fun t => !pyStartsWith t "-") with
      | some k => k + 1
      | none => tokens.length
    insertAt ip (flag ++ "=" ++ value) tokens

/-- The `which` selector of `set_option_on_command`. -/
inductive Which where
  | first
  | all
deriving DecidableEq, Repr

/-- The scanning loop of `set_option_on_command`: rewrite matching lines,
propagating a tokenization failure. -/
def setOptionOnCommandGo (command flag value : String) (which : Which) :
    List String → Except String (List String)
  | [] => .ok []
  | l :: rest =>
    let stripped := pyStrip l
    if pyStartsWith stripped (command ++ " ") then
      match shlexSplit stripped with
      | .error e => .error e
      | .ok toks =>
        let newl := String.intercalate " " (setOptionTokens toks flag value)
        match which with
        | .first => .ok (newl :: rest)
        | .all =>
          (setOptionOnCommandGo command flag value which rest).map
            (fun ls => newl :: ls)
    else
      (setOptionOnCommandGo command flag value which rest).map
        (fun ls => l :: ls)

/-- `SlurmScript.set_option_on_command(command, flag, value, which)`. -/
def setOptionOnCommand (lines : List String) (command flag value : String)
    (which : Which) : Except String (List String) :=
  setOptionOnCommandGo command flag value which lines

/-- The scanning loop of `set_option_on_command_at`: the remaining
occurrence count is decremented at each matching line. -/
def setOptionOnCommandAtGo (command flag value : String) :
    Nat → List String → Except String (List String)
  | _, [] => .ok []
  | occ, l :: rest =>
    let stripped := pyStrip l
    if pyStartsWith stripped (command ++ " ") then
      if occ = 0 then
        match shlexSplit stripped with
        | .error e => .error e
        | .ok toks =>
          .ok (String.intercalate " " (setOptionTokens toks flag value) :: rest)
      else
        (setOptionOnCommandAtGo command flag value (occ - 1) rest).map
          (fun ls => l :: ls)
    else
      (setOptionOnCommandAtGo command flag value occ rest).map
        (fun ls => l :: ls)

/-- `SlurmScript.set_option_on_command_at(command, occurrence, flag, value)`. -/
def setOptionOnCommandAt (lines : List String) (command : String)
    (occurrence : Nat) (flag value : String) : Except String (List String) :=
  setOptionOnCommandAtGo command flag value occurrence lines

/-- Python `opt.split("=", 1)[0]`. -/
def optionName (opt : String) : String :=
  ⟨opt.data.takeWhile (fun c => !(c == '='))⟩

/-- The `flag_map` loop of `normalize_command_options`: a dict from
`--name` to the (last) `--name=value` token. -/
def buildFlagMap (opts : List String) : List (String × String) :=
  opts.foldl (fun m opt =>
    if pyStartsWith opt "--" && containsChar opt '=' then
      dictSet m (optionName opt) opt
    else m) []

/-- Per-line token normalization of `normalize_command_options`
(lines 607–646): preferred long options first, then the remaining option
tokens, then the rest. -/
def normalizeTokens (tokens : List String) (preferred : List String) :
    String :=
  match tokens with
  | [] => ""
  | cmd :: ts =>
    let opts := ts.takeWhile (fun t => pyStartsWith t "-")
    let rest := ts.dropWhile (fun t => pyStartsWith t "-")
    let flagMap := buildFlagMap opts
    let pu := preferred.foldl
      (fun (acc : List String × List String) name =>
        match List.lookup name flagMap with
        | some opt => (acc.1 ++ [opt], acc.2 ++ [name])
        | none => acc) ([], [])
    let newOpts := opts.foldl
      (fun acc opt =>
        if pyStartsWith opt "--" && containsChar opt '=' &&
            pu.2.contains (optionName opt) then acc
        else acc ++ [opt]) pu.1
    String.intercalate " " (cmd :: newOpts ++ rest)

/-- The scanning loop of `normalize_command_options`, with the `seen`
counter and the `seen > occurrence` break of the source. -/
def normCmdGo (command : String) (preferred : List String)
    (occurrence : Option Nat) : List String → Nat → Except String (List String)
  | [], _ => .ok []
  | l :: rest, seen =>
    let stripped := pyStrip l
    if pyStartsWith stripped (command ++ " ") = false then
      (normCmdGo command preferred occurrence rest seen).map (fun ls => l :: ls)
    else if (match occurrence with
             | some occ => decide (seen ≠ occ)
             | none => false) = true then
      (normCmdGo command preferred occurrence rest (seen + 1)).map
        (fun ls => l :: ls)
    else
      match shlexSplit stripped with
      | .error e => .error e
      | .ok toks =>
        if toks.isEmpty then
          (normCmdGo command preferred occurrence rest (seen + 1)).map
            (fun ls => l :: ls)
        else
          let newl := normalizeTokens toks preferred
          match occurrence with
          | some _ => .ok (newl :: rest)
          | none =>
            (normCmdGo command preferred occurrence rest (seen + 1)).map
              (fun ls => newl :: ls)

/-- `SlurmScript.normalize_command_options(command, preferred_order,
occurrence)`. -/
def normalizeCommandOptions (lines : List String) (command : String)
    (preferred : List String) (occurrence : Option Nat) :
    Except String (List String) :=
  normCmdGo command preferred occurrence lines 0

/-! ## C2: continuation merge -/

/-- C2 is false on the code: the two-line text `A = 1 \` / `B = 2` does
not parse to two entries `A→1`, `B→2`, and its parse is not identical to
that of the single line `A = 1 B = 2` (the logical line is
`A = 1  B = 2`, a single statement). -/
theorem c2_counterexample :
    ¬ ((parseConfigText "A = 1 \\\nB = 2").length = 2 ∧
       parseConfigText "A = 1 \\\nB = 2" = parseConfigText "A = 1 B = 2") := by
  decide

/-- C2 (amended): parsing `A = 1 \` / `B = 2` produces exactly one entry,
`A` mapped to `1  B = 2` (the first line's kept trailing space plus the
inserted separator give two internal spaces), while the single line
`A = 1 B = 2` parses to the one entry `A ↦ 1 B = 2`; the two results
differ only in that internal spacing. -/
theorem c2_continuation_merge :
    parseConfigText "A = 1 \\\nB = 2" =
      [("A", ⟨"1  B = 2", ""⟩)] ∧
    parseConfigText "A = 1 B = 2" =
      [("A", ⟨"1 B = 2", ""⟩)] := by
  decide

/-! ## C7: option rewrite styles -/

/-- C7: `set_option_on_command` with flag `--ntasks` and value `8`
rewrites `srun --ntasks 4 prog.sh` to `srun --ntasks 8 prog.sh`
(space-separated style preserved) and `srun --ntasks=4 prog.sh` to
`srun --ntasks=8 prog.sh` (`=` style preserved). -/
theorem c7_option_rewrite_styles :
    setOptionOnCommand ["srun --ntasks 4 prog.sh"] "srun" "--ntasks" "8"
      .first = .ok ["srun --ntasks 8 prog.sh"] ∧
    setOptionOnCommand ["srun --ntasks=4 prog.sh"] "srun" "--ntasks" "8"
      .first = .ok ["srun --ntasks=8 prog.sh"] := by
  exact ⟨rfl, rfl⟩

/-! ## C1, C3, C5, C10: counterexamples -/

/-- C1 is false on the code: for the document parsed from `X = "a#b"`
(a single-line quoted value containing `#`), one round trip does not
preserve the `(name, value, comment)` triples — the value is re-read as
`a` with comment `b`, which is more than the documented loss of quoting. -/
theorem c1_counterexample :
    parseConfigText (configDictToText (parseConfigText "X = \"a#b\"")) ≠
      parseConfigText "X = \"a#b\"" := by
  decide

/-- C3 is false on the code: the input `= 5`, whose statement has an empty
name part before `=`, creates an entry with the empty string as its key. -/
theorem c3_counterexample :
    "" ∈ (parseConfigText "= 5").map Prod.fst := by
  decide

/-- C5 is false on the code for scripts with duplicate `time` directive
lines: starting from two `time` lines, two `set_directive` calls replace
only the first, and the listing (last occurrence wins) reports the stale
value `2`, not `24:00:00`. -/
theorem c5_counterexample :
    listDirectives
        (setDirective
          (setDirective ["#SBATCH --time=1", "#SBATCH --time=2"] "time"
            (some "24:00:00"))
          "time" (some "24:00:00")) = [("time", some "2")] ∧
      some "2" ≠ some "24:00:00" := by
  decide

/-- C10 is false on the code as stated: the empty script round-trips to a
single empty line, and a line containing `\r` (no `\n`) is split by
`splitlines`, so `from_text(to_string(s))` differs from `s` in both
cases. -/
theorem c10_counterexample :
    slurmFromText (slurmToString []) ≠ ([] : List String) ∧
    slurmFromText (slurmToString ["a\rb"]) ≠ ["a\rb"] := by
  decide

/-! ## C4: multi-line closing comment precedence -/

/-- C4: when a multi-line quoted value is closed by a line containing `"`,
the text before the quote becomes the final segment, the committed value is
the accumulated segments joined by newline, and the comment scanned after
the closing quote replaces the comment remembered from the opening
statement only when it is non-empty (otherwise the remembered comment is
kept); multi-line mode ends. -/
theorem c4_multiline_closing_comment :
    ∀ (res : List (String × ConfigEntry)) (n : String) (segs : List String)
      (c : String) (line : String),
      n ≠ "" →
      containsChar (pyStrip line) '"' = true →
      processLine ⟨res, true, some n, segs, c⟩ line =
        ⟨dictSet res n
           ⟨String.intercalate "\n"
              (segs ++ [(partitionQuote (pyStrip line)).1]),
            if (splitComment (partitionQuote (pyStrip line)).2).2 ≠ "" then
              (splitComment (partitionQuote (pyStrip line)).2).2
            else c⟩,
         false, none, [], ""⟩ := by
  intro res n segs c line hn hq
  by_cases he : (splitComment (partitionQuote (pyStrip line)).2).2 = ""
  · simp [processLine, commitMulti, hn, hq, he]
  · simp [processLine, commitMulti, hn, hq, he]

/-- Witness for C4 at a concrete closing line with a trailing comment. -/
theorem c4_witness :
    processLine ⟨[], true, some "X", ["a"], "c0"⟩ "b\" # tail" =
      ⟨[("X", ⟨"a\nb", "tail"⟩)], false, none, [], ""⟩ := by
  have h := c4_multiline_closing_comment [] "X" ["a"] "c0" "b\" # tail"
    (by decide) (by decide)
  exact h.trans (by decide)

/-! ## C9: tokenization failure is a hard, propagated error -/

/-- C9: when the option editors reach a matching command line whose
tokenization fails (unbalanced quoting), the whole edit returns that error:
`set_option_on_command` propagates the failure of the first matching line
(for both `which` modes), and `set_option_on_command_at` that of the
targeted occurrence. -/
theorem c9_tokenization_failure :
    (∀ (pre post : List String) (l cmd flag value : String) (which : Which)
        (e : String),
      (∀ p ∈ pre, pyStartsWith (pyStrip p) (cmd ++ " ") = false) →
      pyStartsWith (pyStrip l) (cmd ++ " ") = true →
      shlexSplit (pyStrip l) = .error e →
      setOptionOnCommand (pre ++ l :: post) cmd flag value which = .error e) ∧
    (∀ (pre post : List String) (l cmd flag value : String) (e : String),
      pyStartsWith (pyStrip l) (cmd ++ " ") = true →
      shlexSplit (pyStrip l) = .error e →
      setOptionOnCommandAt (pre ++ l :: post) cmd
        (pre.countP (fun p => pyStartsWith (pyStrip p) (cmd ++ " ")))
        flag value = .error e) := by
  constructor
  · intro pre post l cmd flag value which e hpre hl herr
    induction pre with
    | nil =>
      simp [setOptionOnCommand, setOptionOnCommandGo, hl, herr]
    | cons p pre ih =>
      have hp : pyStartsWith (pyStrip p) (cmd ++ " ") = false :=
        hpre p (List.mem_cons_self p pre)
      have ih2 := ih (fun q hq => hpre q (List.mem_cons_of_mem p hq))
      simp only [setOptionOnCommand, List.cons_append, setOptionOnCommandGo,
        hp] at *
      simp [ih2]
      rfl
  · intro pre post l cmd flag value e hl herr
    induction pre with
    | nil =>
      simp [setOptionOnCommandAt, setOptionOnCommandAtGo, hl, herr]
    | cons p pre ih =>
      by_cases hp : pyStartsWith (pyStrip p) (cmd ++ " ") = true
      · simp only [setOptionOnCommandAt, List.cons_append,
          setOptionOnCommandAtGo, hp, List.countP_cons, if_pos hp] at *
        simp [Nat.add_comm, ih]
        rfl
      · have hp2 : pyStartsWith (pyStrip p) (cmd ++ " ") = false := by
          simpa using hp
        simp only [setOptionOnCommandAt, List.cons_append,
          setOptionOnCommandAtGo, hp2, List.countP_cons] at *
        simp [hp2, ih]
        rfl

/-- Witness for C9 on a concrete script whose second line opens a quote it
never closes. -/
theorem c9_witness :
    setOptionOnCommand ["echo hi", "srun 'oops prog.sh"] "srun" "--ntasks"
      "8" .first = .error "No closing quotation" ∧
    setOptionOnCommandAt ["srun ok", "srun 'oops prog.sh"] "srun" 1
      "--ntasks" "8" = .error "No closing quotation" := by
  constructor
  · exact c9_tokenization_failure.1 ["echo hi"] [] "srun 'oops prog.sh"
      "srun" "--ntasks" "8" .first "No closing quotation"
      (by decide) (by decide) (by exact rfl)
  · exact c9_tokenization_failure.2 ["srun ok"] [] "srun 'oops prog.sh"
      "srun" "--ntasks" "8" "No closing quotation"
      (by decide) (by exact rfl)

/-! ## Infrastructure for `set_directive` (C5, C6) -/

theorem setDirectiveGo_append (pat : String → Bool) (newLine : String)
    (pre : List String) (l : String) (post : List String)
    (hpre : ∀ p ∈ pre, pat (pyStrip p) = false)
    (hl : pat (pyStrip l) = true) :
    setDirectiveGo pat newLine (pre ++ l :: post) =
      some (pre ++ newLine :: post) := by
  induction pre with
  | nil => simp [setDirectiveGo, hl]
  | cons p pre ih =>
    have hp := hpre p (List.mem_cons_self p pre)
    have ih2 := ih (fun q hq => hpre q (List.mem_cons_of_mem p hq))
    simp [setDirectiveGo, hp, ih2]

theorem setDirectiveGo_eq_none (pat : String → Bool) (newLine : String)
    (lines : List String)
    (h : ∀ p ∈ lines, pat (pyStrip p) = false) :
    setDirectiveGo pat newLine lines = none := by
  induction lines with
  | nil => rfl
  | cons p rest ih =>
    have hp := h p (List.mem_cons_self p rest)
    have ih2 := ih (fun q hq => h q (List.mem_cons_of_mem p hq))
    simp [setDirectiveGo, hp, ih2]

theorem lastSbatchIdx_eq_none (lines : List String)
    (h : ∀ p ∈ lines, pyStartsWith (pyStrip p) "#SBATCH" = false) :
    lastSbatchIdx lines = none := by
  induction lines with
  | nil => rfl
  | cons p rest ih =>
    have hp := h p (List.mem_cons_self p rest)
    have ih2 := ih (fun q hq => h q (List.mem_cons_of_mem p hq))
    simp [lastSbatchIdx, hp, ih2]

theorem lastSbatchIdx_append (pre : List String) (l : String)
    (post : List String)
    (hl : pyStartsWith (pyStrip l) "#SBATCH" = true)
    (hpost : ∀ q ∈ post, pyStartsWith (pyStrip q) "#SBATCH" = false) :
    lastSbatchIdx (pre ++ l :: post) = some pre.length := by
  induction pre with
  | nil => simp [lastSbatchIdx, lastSbatchIdx_eq_none post hpost, hl]
  | cons p pre ih => simp [lastSbatchIdx, ih]

theorem insertAt_succ_append (pre : List String) (l x : String)
    (post : List String) :
    insertAt (pre.length + 1) x (pre ++ l :: post) =
      pre ++ l :: x :: post := by
  induction pre with
  | nil => simp [insertAt]
  | cons p pre ih => simpa [insertAt] using ih

theorem length_insertAt {α : Type} (n : Nat) (x : α) (l : List α)
    (h : n ≤ l.length) : (insertAt n x l).length = l.length + 1 := by
  simp [insertAt]
  omega

/-! ## C6: `set_directive` placement -/

/-- C6: if a directive line with the given name exists, only the first
such line (top-to-bottom) is replaced — the lines before and after it are
untouched, even if duplicates exist among them; if none exists, the new
line is inserted immediately after the last line starting with `#SBATCH`;
in particular on `["#!/bin/bash", "#SBATCH --nodes=1"]`,
`set_directive("time", "01:00:00")` inserts the new directive at index 2,
not at the top. -/
theorem c6_set_directive_placement :
    (∀ (pre post : List String) (l name : String) (value : Option String),
      (∀ p ∈ pre, matchesDirectivePattern name (pyStrip p) = false) →
      matchesDirectivePattern name (pyStrip l) = true →
      setDirective (pre ++ l :: post) name value =
        pre ++ renderDirective name value :: post) ∧
    (∀ (pre post : List String) (l name : String) (value : Option String),
      (∀ p ∈ pre ++ l :: post,
        matchesDirectivePattern name (pyStrip p) = false) →
      pyStartsWith (pyStrip l) "#SBATCH" = true →
      (∀ q ∈ post, pyStartsWith (pyStrip q) "#SBATCH" = false) →
      setDirective (pre ++ l :: post) name value =
        pre ++ l :: renderDirective name value :: post) ∧
    setDirective ["#!/bin/bash", "#SBATCH --nodes=1"] "time"
        (some "01:00:00") =
      ["#!/bin/bash", "#SBATCH --nodes=1", "#SBATCH --time=01:00:00"] := by
  refine ⟨?_, ?_, by decide⟩
  · intro pre post l name value hpre hl
    simp [setDirective,
      setDirectiveGo_append (fun s => matchesDirectivePattern name s)
        (renderDirective name value) pre l post hpre hl]
  · intro pre post l name value hnone hl hpost
    have hgo := setDirectiveGo_eq_none
      (fun s => matchesDirectivePattern name s)
      (renderDirective name value) (pre ++ l :: post) hnone
    have hlast := lastSbatchIdx_append pre l post hl hpost
    simp [setDirective, insertIdxFor, hgo, hlast, insertAt_succ_append]

/-- Witness for C6: replacing the first of two `time` lines, and inserting
after the last `#SBATCH` line when no `time` line exists. -/
theorem c6_witness :
    setDirective ["#SBATCH --time=1", "#SBATCH --time=2"] "time"
        (some "9") =
      ["#SBATCH --time=9", "#SBATCH --time=2"] ∧
    setDirective ["#!/bin/bash", "#SBATCH --nodes=1", "echo hi"] "time"
        (some "9") =
      ["#!/bin/bash", "#SBATCH --nodes=1", "#SBATCH --time=9", "echo hi"] := by
  constructor
  · have h := c6_set_directive_placement.1 [] ["#SBATCH --time=2"]
      "#SBATCH --time=1" "time" (some "9") (by decide) (by decide)
    exact h.trans (by decide)
  · have h := c6_set_directive_placement.2.1 ["#!/bin/bash"] ["echo hi"]
      "#SBATCH --nodes=1" "time" (some "9") (by decide) (by decide) (by decide)
    exact h.trans (by decide)

/-! ## Infrastructure for `list_directives` (C5) -/

theorem stripPrefixL_append (l t : List Char) :
    stripPrefixL l (l ++ t) = some t := by
  induction l with
  | nil => simp [stripPrefixL]
  | cons c cs ih => simp [stripPrefixL, ih]

/-- A line whose `list_directives` regex yields name `name` also matches
the `set_directive` regex for `name`. -/
theorem dirNameValue_imp_matches (name : String) (s : String)
    (v : Option String) (h : directiveNameValue s = some (name, v)) :
    matchesDirectivePattern name s = true := by
  unfold directiveNameValue at h
  cases htail : directiveTail s.data with
  | none => rw [htail] at h; exact absurd h (by simp)
  | some r =>
    rw [htail] at h
    unfold dirNameValueTail at h
    simp only at h
    have hr : List.takeWhile (fun c => !(c == '=' || pyIsSpace c)) r ++
        List.dropWhile (fun c => !(c == '=' || pyIsSpace c)) r = r :=
      List.takeWhile_append_dropWhile _ r
    have hmain : name.data =
        List.takeWhile (fun c => !(c == '=' || pyIsSpace c)) r ∧
        ((List.dropWhile (fun c => !(c == '=' || pyIsSpace c)) r).isEmpty ||
         (List.dropWhile (fun c => !(c == '=' || pyIsSpace c)) r).head? ==
           some '=' ||
         (List.dropWhile (fun c => !(c == '=' || pyIsSpace c)) r).all
           pyIsSpace) = true := by
      by_cases hemp :
          (List.takeWhile (fun c => !(c == '=' || pyIsSpace c)) r).isEmpty
      · rw [if_pos hemp] at h
        exact absurd h (by simp)
      rw [if_neg hemp] at h
      by_cases hte :
          (List.dropWhile (fun c => !(c == '=' || pyIsSpace c)) r).isEmpty
      · rw [if_pos hte] at h
        simp only [Option.some.injEq, Prod.mk.injEq] at h
        exact ⟨by rw [← h.1], by rw [hte]; rfl⟩
      rw [if_neg hte] at h
      by_cases thd :
          ((List.dropWhile (fun c => !(c == '=' || pyIsSpace c)) r).head? ==
            some '=') = true
      · rw [if_pos thd] at h
        simp only [Option.some.injEq, Prod.mk.injEq] at h
        exact ⟨by rw [← h.1], by simp only [thd, Bool.true_or, Bool.or_true]⟩
      rw [if_neg thd] at h
      by_cases hall :
          (List.dropWhile (fun c => !(c == '=' || pyIsSpace c)) r).all
            pyIsSpace = true
      · rw [if_pos hall] at h
        simp only [Option.some.injEq, Prod.mk.injEq] at h
        exact ⟨by rw [← h.1], by simp only [hall, Bool.or_true]⟩
      · rw [if_neg hall] at h
        exact absurd h (by simp)
    have hspfx : stripPrefixL name.data r =
        some (List.dropWhile (fun c => !(c == '=' || pyIsSpace c)) r) := by
      conv_lhs => rw [← hr, ← hmain.1]
      exact stripPrefixL_append name.data _
    unfold matchesDirectivePattern
    simp only [htail, hspfx]
    exact hmain.2

theorem filter_map_overwrite {β : Type} (d : List (String × β))
    (k tgt : String) (v : β) (h : (k == tgt) = false) :
    (d.map (fun p => if p.1 == k then (k, v) else p)).filter
        (fun p => p.1 == tgt) =
      d.filter (fun p => p.1 == tgt) := by
  induction d with
  | nil => rfl
  | cons p d ih =>
    by_cases hpk : (p.1 == k) = true
    · have hp1 : p.1 = k := by simpa using hpk
      have hkt : ¬ (k = tgt) := by simpa using h
      simp [List.filter_cons, hp1, hkt]
      simpa using ih
    · have hpk2 : (p.1 == k) = false := by simpa using hpk
      simp only [List.map_cons, hpk2, List.filter_cons]
      rw [ih]
      simp [hpk2]

theorem dictSet_filter_ne {β : Type} (d : List (String × β))
    (k tgt : String) (v : β) (h : (k == tgt) = false) :
    (dictSet d k v).filter (fun p => p.1 == tgt) =
      d.filter (fun p => p.1 == tgt) := by
  unfold dictSet
  by_cases hin : d.any (fun p => p.1 == k) = true
  · rw [if_pos hin]
    exact filter_map_overwrite d k tgt v h
  · rw [if_neg hin]
    rw [List.filter_append]
    simp [List.filter_cons, h]

theorem dictSet_absent {β : Type} (d : List (String × β)) (k : String)
    (v : β) (h : d.any (fun p => p.1 == k) = false) :
    dictSet d k v = d ++ [(k, v)] := by
  simp [dictSet, h]

theorem any_false_of_filter_nil {β : Type} (d : List (String × β))
    (tgt : String) (h : d.filter (fun p => p.1 == tgt) = []) :
    d.any (fun p => p.1 == tgt) = false := by
  cases hb : d.any (fun p => p.1 == tgt) with
  | false => rfl
  | true =>
    rcases List.any_eq_true.mp hb with ⟨p, hp, hpt⟩
    exact absurd hpt (List.filter_eq_nil_iff.mp h p hp)

theorem foldl_ldStep_filter (tgt : String) :
    ∀ (ls : List String) (acc : List (String × Option String)),
      (∀ l ∈ ls, matchesDirectivePattern tgt (pyStrip l) = false) →
      (ls.foldl ldStep acc).filter (fun p => p.1 == tgt) =
        acc.filter (fun p => p.1 == tgt) := by
  intro ls
  induction ls with
  | nil => intro acc _; rfl
  | cons l ls ih =>
    intro acc h
    have hl := h l (List.mem_cons_self l ls)
    have hstep : (ldStep acc l).filter (fun p => p.1 == tgt) =
        acc.filter (fun p => p.1 == tgt) := by
      unfold ldStep
      cases hnv : directiveNameValue (pyStrip l) with
      | none => rfl
      | some nv =>
        have hk : (nv.1 == tgt) = false := by
          by_contra hcon
          have hkt : nv.1 = tgt := by
            have : (nv.1 == tgt) = true := by
              cases hb : (nv.1 == tgt)
              · exact absurd hb hcon
              · rfl
            simpa using this
          have hm := dirNameValue_imp_matches nv.1 (pyStrip l) nv.2
            (by rw [hnv])
          rw [hkt] at hm
          rw [hm] at hl
          cases hl
        exact dictSet_filter_ne acc nv.1 tgt nv.2 hk
    rw [List.foldl_cons,
      ih (ldStep acc l) (fun q hq => h q (List.mem_cons_of_mem l hq)), hstep]

/-- The `time` entries of the listing of a script with exactly one
`time`-directive line. -/
theorem listDirectives_single (pre post : List String) (nl : String)
    (tgt : String) (v : Option String)
    (hpre : ∀ l ∈ pre, matchesDirectivePattern tgt (pyStrip l) = false)
    (hpost : ∀ l ∈ post, matchesDirectivePattern tgt (pyStrip l) = false)
    (hnl : directiveNameValue (pyStrip nl) = some (tgt, v)) :
    (listDirectives (pre ++ nl :: post)).filter (fun p => p.1 == tgt) =
      [(tgt, v)] := by
  unfold listDirectives
  rw [List.foldl_append _ _ pre (nl :: post), List.foldl_cons]
  have hpre2 : (List.foldl ldStep [] pre).filter (fun p => p.1 == tgt) = [] :=
    foldl_ldStep_filter tgt pre [] hpre
  have habs := any_false_of_filter_nil _ tgt hpre2
  have hstep : ldStep (List.foldl ldStep [] pre) nl =
      List.foldl ldStep [] pre ++ [(tgt, v)] := by
    unfold ldStep
    rw [hnl]
    exact dictSet_absent _ _ _ habs
  rw [foldl_ldStep_filter tgt post _ hpost, hstep, List.filter_append, hpre2]
  simp

/-- Decompose a list of lines at the first match of a predicate. -/
theorem firstMatchDecomp (pat : String → Bool) :
    ∀ (lines : List String),
      (∀ l ∈ lines, pat (pyStrip l) = false) ∨
      ∃ pre l post, lines = pre ++ l :: post ∧
        (∀ p ∈ pre, pat (pyStrip p) = false) ∧ pat (pyStrip l) = true := by
  intro lines
  induction lines with
  | nil =>
    left
    intro l h
    cases h
  | cons a rest ih =>
    by_cases ha : pat (pyStrip a) = true
    · right
      refine ⟨[], a, rest, rfl, ?_, ha⟩
      intro p hp
      cases hp
    · have ha2 : pat (pyStrip a) = false := by
        cases hb : pat (pyStrip a)
        · rfl
        · exact absurd hb ha
      cases ih with
      | inl h =>
        left
        intro l hl
        rcases List.mem_cons.mp hl with h1 | h2
        · rw [h1]; exact ha2
        · exact h l h2
      | inr h =>
        rcases h with ⟨pre, l, post, heq, hpre, hl⟩
        right
        refine ⟨a :: pre, l, post, by rw [heq, List.cons_append], ?_, hl⟩
        intro p hp
        rcases List.mem_cons.mp hp with h1 | h2
        · rw [h1]; exact ha2
        · exact hpre p h2

theorem lastSbatchIdx_lt_length :
    ∀ (lines : List String) (j : Nat),
      lastSbatchIdx lines = some j → j < lines.length := by
  intro lines
  induction lines with
  | nil => intro j h; cases h
  | cons l rest ih =>
    intro j h
    unfold lastSbatchIdx at h
    cases hr : lastSbatchIdx rest with
    | some j2 =>
      rw [hr] at h
      simp only [Option.some.injEq] at h
      have := ih j2 hr
      simp [← h]
      omega
    | none =>
      rw [hr] at h
      by_cases hp : pyStartsWith (pyStrip l) "#SBATCH" = true
      · rw [if_pos hp] at h
        simp only [Option.some.injEq] at h
        simp [← h]
      · rw [if_neg hp] at h
        cases h

theorem setDirective_replace (pre post : List String) (l name : String)
    (value : Option String)
    (hpre : ∀ p ∈ pre, matchesDirectivePattern name (pyStrip p) = false)
    (hl : matchesDirectivePattern name (pyStrip l) = true) :
    setDirective (pre ++ l :: post) name value =
      pre ++ renderDirective name value :: post := by
  unfold setDirective
  simp only [setDirectiveGo_append (fun s => matchesDirectivePattern name s)
    (renderDirective name value) pre l post hpre hl]

theorem insertIdxFor_le (lines : List String) :
    insertIdxFor lines ≤ lines.length := by
  unfold insertIdxFor
  cases hlast : lastSbatchIdx lines with
  | some j =>
    have := lastSbatchIdx_lt_length lines j hlast
    simp only [hlast]
    omega
  | none =>
    simp only [hlast]
    cases lines with
    | nil => simp
    | cons l0 rest =>
      show (if pyStartsWith l0 "#!" = true then 1 else 0) ≤ (l0 :: rest).length
      by_cases h0 : pyStartsWith l0 "#!" = true
      · rw [if_pos h0]
        simp only [List.length_cons]
        omega
      · rw [if_neg h0]
        omega

theorem setDirective_insert (lines : List String) (name : String)
    (value : Option String)
    (h : ∀ p ∈ lines, matchesDirectivePattern name (pyStrip p) = false) :
    setDirective lines name value =
      insertAt (insertIdxFor lines) (renderDirective name value) lines := by
  unfold setDirective
  simp only [setDirectiveGo_eq_none (fun s => matchesDirectivePattern name s)
    (renderDirective name value) lines h]

/-! ## C5: directive set idempotence -/

/-- C5 (amended): for every starting script whose lines contain no newline
character and which has at most one line matching the `time` directive
pattern, calling `set_directive("time", "24:00:00")` twice in a row yields
a script whose directive listing has exactly one `time` entry, mapped to
`24:00:00`, and whose total line count exceeds the original count by at
most 1.  (The newline-freedom hypothesis records where the embedded regex
matchers agree with Python's; scripts built by `from_text` satisfy it.) -/
theorem c5_directive_idempotence :
    ∀ (lines : List String),
      (∀ l ∈ lines, containsChar l '\n' = false) →
      lines.countP
          (fun l => matchesDirectivePattern "time" (pyStrip l)) ≤ 1 →
      (listDirectives
          (setDirective (setDirective lines "time" (some "24:00:00"))
            "time" (some "24:00:00"))).filter (fun p => p.1 == "time") =
        [("time", some "24:00:00")] ∧
      (setDirective (setDirective lines "time" (some "24:00:00")) "time"
          (some "24:00:00")).length ≤ lines.length + 1 := by
  intro lines _ hcount
  have hpatnl : matchesDirectivePattern "time"
      (pyStrip (renderDirective "time" (some "24:00:00"))) = true := by
    decide
  have hnv : directiveNameValue
      (pyStrip (renderDirective "time" (some "24:00:00"))) =
      some ("time", some "24:00:00") := by decide
  rcases firstMatchDecomp (fun s => matchesDirectivePattern "time" s) lines
    with hno | ⟨pre, l, post, heq, hpre, hl⟩
  · have hset := setDirective_insert lines "time" (some "24:00:00") hno
    have hidx := insertIdxFor_le lines
    set idx := insertIdxFor lines with hidxdef
    have hpre2 : ∀ p ∈ lines.take idx,
        matchesDirectivePattern "time" (pyStrip p) = false :=
      fun p hp => hno p (List.take_subset idx lines hp)
    have hpost2 : ∀ p ∈ lines.drop idx,
        matchesDirectivePattern "time" (pyStrip p) = false :=
      fun p hp => hno p (List.drop_subset idx lines hp)
    have hs1 : setDirective lines "time" (some "24:00:00") =
        lines.take idx ++
          renderDirective "time" (some "24:00:00") :: lines.drop idx := by
      rw [hset]; rfl
    have hs2 : setDirective
        (lines.take idx ++
          renderDirective "time" (some "24:00:00") :: lines.drop idx)
        "time" (some "24:00:00") =
        lines.take idx ++
          renderDirective "time" (some "24:00:00") :: lines.drop idx :=
      setDirective_replace _ _ _ _ _ hpre2 hpatnl
    rw [hs1, hs2]
    constructor
    · exact listDirectives_single _ _ _ "time" (some "24:00:00")
        hpre2 hpost2 hnv
    · simp only [List.length_append, List.length_cons, List.length_take,
        List.length_drop]
      omega
  · have hl2 : matchesDirectivePattern "time" (pyStrip l) = true := hl
    have hpre2 : ∀ p ∈ pre,
        matchesDirectivePattern "time" (pyStrip p) = false := hpre
    have hpost2 : ∀ p ∈ post,
        matchesDirectivePattern "time" (pyStrip p) = false := by
      rw [heq] at hcount
      rw [List.countP_append, List.countP_cons_of_pos _ _ (by exact hl2)]
        at hcount
      have hzero : post.countP
          (fun l => matchesDirectivePattern "time" (pyStrip l)) = 0 := by
        omega
      intro p hp
      have := List.countP_eq_zero.mp hzero p hp
      cases hb : matchesDirectivePattern "time" (pyStrip p)
      · rfl
      · exact absurd hb this
    have hs1 : setDirective lines "time" (some "24:00:00") =
        pre ++ renderDirective "time" (some "24:00:00") :: post := by
      rw [heq]
      exact setDirective_replace _ _ _ _ _ hpre2 hl2
    have hs2 : setDirective
        (pre ++ renderDirective "time" (some "24:00:00") :: post)
        "time" (some "24:00:00") =
        pre ++ renderDirective "time" (some "24:00:00") :: post :=
      setDirective_replace _ _ _ _ _ hpre2 hpatnl
    rw [hs1, hs2]
    constructor
    · exact listDirectives_single _ _ _ "time" (some "24:00:00")
        hpre2 hpost2 hnv
    · rw [heq]
      simp

/-- Witness for C5 on a two-line script with no prior `time` directive. -/
theorem c5_witness :
    (listDirectives
        (setDirective
          (setDirective ["#!/bin/bash", "#SBATCH --nodes=1"] "time"
            (some "24:00:00"))
          "time" (some "24:00:00"))).filter (fun p => p.1 == "time") =
      [("time", some "24:00:00")] ∧
    (setDirective
        (setDirective ["#!/bin/bash", "#SBATCH --nodes=1"] "time"
          (some "24:00:00"))
        "time" (some "24:00:00")).length ≤ 3 := by
  have h := c5_directive_idempotence ["#!/bin/bash", "#SBATCH --nodes=1"]
    (by decide) (by decide)
  exact h

/-! ## Infrastructure for `splitlines` of joined lines (C10, C1) -/

theorem splitlinesL_newline_cons (s : List Char) :
    splitlinesL ('\n' :: s) = [] :: splitlinesL s := by
  rw [splitlinesL]
  · rw [if_pos (by decide)]
  · intro r h1 h2
    exact absurd h1 (by decide)

theorem splitlinesL_cons_nonbreak (c : Char) (rest : List Char)
    (h : isLineBreak c = false) :
    splitlinesL (c :: rest) =
      (match splitlinesL rest with
       | [] => [[c]]
       | l :: ls => (c :: l) :: ls) := by
  have hc : ¬ c = '\r' := by
    intro he
    subst he
    simp [isLineBreak] at h
  rw [splitlinesL]
  · rw [if_neg (by simp [h])]
  · intro r h1 h2
    exact hc h1

theorem splitlinesL_append_newline (l s : List Char)
    (h : l.all (fun c => !isLineBreak c) = true) :
    splitlinesL (l ++ '\n' :: s) = l :: splitlinesL s := by
  induction l with
  | nil => simpa using splitlinesL_newline_cons s
  | cons c l ih =>
    rw [List.all_cons] at h
    have hc : isLineBreak c = false := by
      have := ((Bool.and_eq_true _ _).mp h).1
      simpa using this
    have hl := ((Bool.and_eq_true _ _).mp h).2
    rw [List.cons_append, splitlinesL_cons_nonbreak c _ hc, ih hl]

theorem splitlinesL_nonbreak (l : List Char)
    (h : l.all (fun c => !isLineBreak c) = true) (hne : l ≠ []) :
    splitlinesL l = [l] := by
  induction l with
  | nil => exact absurd rfl hne
  | cons c l ih =>
    rw [List.all_cons] at h
    have hc : isLineBreak c = false := by
      have := ((Bool.and_eq_true _ _).mp h).1
      simpa using this
    have hl := ((Bool.and_eq_true _ _).mp h).2
    rw [splitlinesL_cons_nonbreak c l hc]
    by_cases hl0 : l = []
    · subst hl0
      rfl
    · rw [ih hl hl0]

theorem splitlines_join_trailing :
    ∀ (lines : List String),
      lines ≠ [] →
      (∀ l ∈ lines, l.data.all (fun c => !isLineBreak c) = true) →
      splitlines (joinNl lines ++ "\n") = lines := by
  intro lines
  induction lines with
  | nil => intro h; exact absurd rfl h
  | cons a rest ih =>
    intro _ h
    have ha := h a (List.mem_cons_self a rest)
    cases rest with
    | nil =>
      show splitlines (a ++ "\n") = [a]
      unfold splitlines
      have hd : (a ++ "\n").data = a.data ++ '\n' :: [] := by
        rw [String.data_append]
      rw [hd, splitlinesL_append_newline a.data [] ha]
      rfl
    | cons b rest2 =>
      have hrest := ih (by simp)
        (fun l hl => h l (List.mem_cons_of_mem a hl))
      show splitlines ((a ++ "\n" ++ joinNl (b :: rest2)) ++ "\n") = _
      unfold splitlines
      have hd : ((a ++ "\n" ++ joinNl (b :: rest2)) ++ "\n").data =
          a.data ++ '\n' :: (joinNl (b :: rest2) ++ "\n").data := by
        rw [String.data_append, String.data_append, String.data_append,
          String.data_append]
        simp
      rw [hd, splitlinesL_append_newline a.data _ ha]
      unfold splitlines at hrest
      rw [List.map_cons, hrest]

theorem splitlines_join :
    ∀ (lines : List String),
      (∀ l ∈ lines,
        l.data.all (fun c => !isLineBreak c) = true ∧ l ≠ "") →
      splitlines (joinNl lines) = lines := by
  intro lines
  induction lines with
  | nil => intro _; rfl
  | cons a rest ih =>
    intro h
    have ha := h a (List.mem_cons_self a rest)
    have hadne : a.data ≠ [] := by
      intro hd
      apply ha.2
      cases a with
      | mk d =>
        rw [show (String.mk d).data = d from rfl] at hd
        rw [hd]
    cases rest with
    | nil =>
      show splitlines a = [a]
      unfold splitlines
      rw [splitlinesL_nonbreak a.data ha.1 hadne]
      rfl
    | cons b rest2 =>
      have hrest := ih (fun l hl => h l (List.mem_cons_of_mem a hl))
      show splitlines (a ++ "\n" ++ joinNl (b :: rest2)) = _
      unfold splitlines
      have hd : (a ++ "\n" ++ joinNl (b :: rest2)).data =
          a.data ++ '\n' :: (joinNl (b :: rest2)).data := by
        rw [String.data_append, String.data_append]
        simp
      rw [hd, splitlinesL_append_newline a.data _ ha.1]
      unfold splitlines at hrest
      rw [List.map_cons, hrest]

/-! ## C10: script text round trip -/

/-- C10 (amended): for every `SlurmScript` with a nonempty list of stored
lines, each free of every character `str.splitlines` treats as a line
boundary (not only `\n`: also `\r`, `\v`, `\f`, `\x1c`–`\x1e`, `\x85`,
U+2028, U+2029), `to_string()` returns the lines joined by `\n` followed
by exactly one trailing newline, and `from_text(to_string(s))` holds
exactly the same line sequence; the empty script instead round-trips to a
single empty line, and a line containing `\r` is split. -/
theorem c10_to_string_roundtrip :
    ∀ (lines : List String),
      lines ≠ [] →
      (∀ l ∈ lines, l.data.all (fun c => !isLineBreak c) = true) →
      slurmToString lines = joinNl lines ++ "\n" ∧
      slurmFromText (slurmToString lines) = lines := by
  intro lines hne h
  exact ⟨rfl, splitlines_join_trailing lines hne h⟩

/-- Witness for C10 on a concrete two-line script. -/
theorem c10_witness :
    slurmToString ["#!/bin/bash", "echo hi"] = "#!/bin/bash\necho hi\n" ∧
    slurmFromText (slurmToString ["#!/bin/bash", "echo hi"]) =
      ["#!/bin/bash", "echo hi"] := by
  have h := c10_to_string_roundtrip ["#!/bin/bash", "echo hi"]
    (by decide) (by decide)
  exact ⟨by decide, h.2⟩

/-! ## Infrastructure for the key-nonemptiness invariant (C3) -/

theorem dictSet_keys {β : Type} (d : List (String × β)) (k : String) (v : β)
    (hd : ∀ p ∈ d, p.1 ≠ "") (hk : k ≠ "") :
    ∀ p ∈ dictSet d k v, p.1 ≠ "" := by
  intro p hp
  unfold dictSet at hp
  by_cases hin : d.any (fun q => q.1 == k) = true
  · rw [if_pos hin] at hp
    rcases List.mem_map.mp hp with ⟨q, hq, hfq⟩
    by_cases hqk : (q.1 == k) = true
    · rw [← hfq]
      simp only [hqk, if_pos]
      exact hk
    · rw [← hfq]
      simp only [hqk]
      simp only [Bool.false_eq_true, if_false]
      exact hd q hq
  · rw [if_neg hin] at hp
    rcases List.mem_append.mp hp with h1 | h2
    · exact hd p h1
    · rw [List.mem_singleton.mp h2]
      exact hk

theorem commitMulti_keys (st : PState)
    (hst : ∀ p ∈ st.result, p.1 ≠ "") :
    ∀ p ∈ (commitMulti st).result, p.1 ≠ "" := by
  unfold commitMulti
  cases hn : st.curName with
  | none => simpa [hn] using hst
  | some n =>
    by_cases hne : n ≠ ""
    · simp only [hn]
      rw [if_pos hne]
      exact dictSet_keys _ _ _ hst hne
    · simp only [hn]
      rw [if_neg hne]
      exact hst

theorem processStmt_keys (comment : String) (lastIdx : Nat) (st : PState)
    (pr : Nat × String)
    (hstmt : pyStrip pr.2 ≠ "" → containsChar (pyStrip pr.2) '=' = true →
      pyStrip (splitFirstEq (pyStrip pr.2)).1 ≠ "")
    (hst : ∀ p ∈ st.result, p.1 ≠ "") :
    ∀ p ∈ (processStmt comment lastIdx st pr).result, p.1 ≠ "" := by
  unfold processStmt
  by_cases h1 : pyStrip pr.2 = "" ∨ containsChar (pyStrip pr.2) '=' = false
  · rw [if_pos h1]
    exact hst
  · rw [if_neg h1]
    push_neg at h1
    have hA : pyStrip pr.2 ≠ "" := h1.1
    have hB : containsChar (pyStrip pr.2) '=' = true := by
      cases hb : containsChar (pyStrip pr.2) '='
      · exact absurd hb h1.2
      · rfl
    have hname := hstmt hA hB
    by_cases hq : pyStartsWith (pyStrip (splitFirstEq (pyStrip pr.2)).2)
        "\"" = true
    · simp only [hq, if_pos]
      by_cases hc : containsChar
          ⟨(pyStrip (splitFirstEq (pyStrip pr.2)).2).data.tail⟩ '"' = true
      · simp only [hc, if_pos]
        exact dictSet_keys _ _ _ hst hname
      · simp only [hc, Bool.false_eq_true, if_false]
        exact hst
    · simp only [hq, Bool.false_eq_true, if_false]
      exact dictSet_keys _ _ _ hst hname

theorem foldl_processStmt_keys (comment : String) (lastIdx : Nat) :
    ∀ (pairs : List (Nat × String)) (st : PState),
      (∀ pr ∈ pairs,
        pyStrip pr.2 ≠ "" → containsChar (pyStrip pr.2) '=' = true →
        pyStrip (splitFirstEq (pyStrip pr.2)).1 ≠ "") →
      (∀ p ∈ st.result, p.1 ≠ "") →
      ∀ p ∈ (pairs.foldl (processStmt comment lastIdx) st).result,
        p.1 ≠ "" := by
  intro pairs
  induction pairs with
  | nil => intro st _ hst; exact hst
  | cons pr pairs ih =>
    intro st h hst
    rw [List.foldl_cons]
    exact ih _ (fun q hq => h q (List.mem_cons_of_mem pr hq))
      (processStmt_keys comment lastIdx st pr
        (h pr (List.mem_cons_self pr pairs)) hst)

theorem processLine_keys (st : PState) (line : String)
    (hline : ∀ stmt ∈ splitStatements (splitComment (pyStrip line)).1,
      pyStrip stmt ≠ "" → containsChar (pyStrip stmt) '=' = true →
      pyStrip (splitFirstEq (pyStrip stmt)).1 ≠ "")
    (hst : ∀ p ∈ st.result, p.1 ≠ "") :
    ∀ p ∈ (processLine st line).result, p.1 ≠ "" := by
  unfold processLine
  by_cases hm : st.inMulti = true
  · rw [if_pos hm]
    by_cases hqq : containsChar (pyStrip line) '"' = true
    · rw [if_pos hqq]
      dsimp only
      by_cases he : (splitComment (partitionQuote (pyStrip line)).2).2 ≠ ""
      · rw [if_pos he]
        exact commitMulti_keys _ hst
      · rw [if_neg he]
        exact commitMulti_keys _ hst
    · rw [if_neg hqq]
      exact hst
  · rw [if_neg hm]
    by_cases h2 : pyStrip line = "" ∨ pyStartsWith (pyStrip line) "#" = true ∨
        pyStartsWith (pyStrip line) "!" = true
    · rw [if_pos h2]
      exact hst
    · rw [if_neg h2]
      by_cases h3 : containsChar (pyStrip line) '=' = false
      · rw [if_pos h3]
        exact hst
      · rw [if_neg h3]
        apply foldl_processStmt_keys _ _ _ st _ hst
        intro pr hpr
        apply hline pr.2
        have hmem : pr.2 ∈
            (splitStatements (splitComment (pyStrip line)).1).enum.map
              Prod.snd :=
          List.mem_map_of_mem Prod.snd hpr
        rwa [List.enum_map_snd] at hmem

/-! ## C3: non-empty-name invariant -/

/-- C3 (amended): for every input text in which each `;`-separated
statement of each logical line that is non-empty and contains `=` has a
non-empty name part before its first `=`, every key of the mapping
returned by `parse_config_text` is a non-empty string.  (Without that
restriction an entry with an empty name is created by a direct statement
whose text before the first `=` trims to the empty string, as in `= 5`;
the multi-line commit path never creates one, because `_commit_multiline`
checks the truthiness of the remembered name.) -/
theorem c3_nonempty_names :
    ∀ (text : String),
      (∀ line ∈ logicalLines text,
        ∀ stmt ∈ splitStatements (splitComment (pyStrip line)).1,
          pyStrip stmt ≠ "" → containsChar (pyStrip stmt) '=' = true →
          pyStrip (splitFirstEq (pyStrip stmt)).1 ≠ "") →
      ∀ p ∈ parseConfigText text, p.1 ≠ "" := by
  intro text htext
  unfold parseConfigText
  have hfold : ∀ (lines : List String) (st : PState),
      (∀ line ∈ lines,
        ∀ stmt ∈ splitStatements (splitComment (pyStrip line)).1,
          pyStrip stmt ≠ "" → containsChar (pyStrip stmt) '=' = true →
          pyStrip (splitFirstEq (pyStrip stmt)).1 ≠ "") →
      (∀ p ∈ st.result, p.1 ≠ "") →
      ∀ p ∈ (lines.foldl processLine st).result, p.1 ≠ "" := by
    intro lines
    induction lines with
    | nil => intro st _ hst; exact hst
    | cons l lines ih =>
      intro st h hst
      rw [List.foldl_cons]
      exact ih _ (fun q hq => h q (List.mem_cons_of_mem l hq))
        (processLine_keys st l (h l (List.mem_cons_self l lines)) hst)
  have hbase : ∀ p ∈ (([] : List (String × ConfigEntry))), p.1 ≠ "" := by
    intro p hp
    cases hp
  have hres := hfold (logicalLines text) ⟨[], false, none, [], ""⟩ htext hbase
  by_cases hm : ((logicalLines text).foldl processLine
      ⟨[], false, none, [], ""⟩).inMulti = true
  · rw [if_pos hm]
    exact commitMulti_keys _ hres
  · rw [if_neg hm]
    exact hres

/-- Witness for C3 on a two-statement line with a comment. -/
theorem c3_witness :
    ¬ ("" ∈ (parseConfigText "A = 1; B = 2 # n").map Prod.fst) := by
  intro hmem
  rcases List.mem_map.mp hmem with ⟨p, hp, hfst⟩
  exact c3_nonempty_names "A = 1; B = 2 # n" (by decide) p hp hfst

/-! ## Infrastructure for `normalize_command_options` (C8) -/

theorem lookup_overwrite {β : Type} (k : String) (v : β) :
    ∀ (d : List (String × β)), d.any (fun p => p.1 == k) = true →
      List.lookup k (d.map (fun p => if p.1 == k then (k, v) else p)) =
        some v := by
  intro d
  induction d with
  | nil => intro h; cases h
  | cons p d ih =>
    rcases p with ⟨p1, p2⟩
    intro h
    by_cases hpk : (p1 == k) = true
    · simp only [List.map_cons]
      rw [if_pos hpk]
      simp [List.lookup]
    · have h2 : d.any (fun p => p.1 == k) = true := by
        simpa [List.any_cons, hpk] using h
      have hkp : (k == p1) = false := by
        have hne : p1 ≠ k := by simpa using hpk
        simp [Ne.symm hne]
      simp only [List.map_cons]
      rw [if_neg hpk]
      simp only [List.lookup, hkp]
      simpa using ih h2

theorem lookup_append_single {β : Type} (k : String) (v : β) :
    ∀ (d : List (String × β)), d.any (fun p => p.1 == k) = false →
      List.lookup k (d ++ [(k, v)]) = some v := by
  intro d
  induction d with
  | nil => intro _; simp [List.lookup]
  | cons p d ih =>
    rcases p with ⟨p1, p2⟩
    intro h
    have hp : (p1 == k) = false := by
      cases hb : (p1 == k)
      · rfl
      · rw [List.any_cons, hb] at h
        simp at h
    have h2 : d.any (fun p => p.1 == k) = false := by
      rw [List.any_cons, hp] at h
      simpa using h
    have hkp : (k == p1) = false := by
      have hne : p1 ≠ k := by simpa using hp
      simp [Ne.symm hne]
    simp [List.lookup, hkp, ih h2]

theorem dictSet_lookup_self {β : Type} (d : List (String × β)) (k : String)
    (v : β) : List.lookup k (dictSet d k v) = some v := by
  unfold dictSet
  by_cases hin : d.any (fun p => p.1 == k) = true
  · rw [if_pos hin]
    exact lookup_overwrite k v d hin
  · rw [if_neg hin]
    have h2 : d.any (fun p => p.1 == k) = false := by
      cases hb : d.any (fun p => p.1 == k)
      · rfl
      · exact absurd hb hin
    exact lookup_append_single k v d h2

theorem dictSet_lookup_ne {β : Type} (k k' : String) (v : β)
    (h : (k' == k) = false) :
    ∀ (d : List (String × β)),
      List.lookup k' (dictSet d k v) = List.lookup k' d := by
  have hmain : ∀ (d : List (String × β)),
      List.lookup k' (d.map (fun p => if p.1 == k then (k, v) else p)) =
        List.lookup k' d := by
    intro d
    induction d with
    | nil => rfl
    | cons p d ih =>
      rcases p with ⟨p1, p2⟩
      by_cases hpk : (p1 == k) = true
      · have hp1 : p1 = k := by simpa using hpk
        simp only [List.map_cons]
        rw [if_pos hpk]
        simp only [List.lookup, hp1, h]
        simpa using ih
      · simp only [List.map_cons]
        rw [if_neg hpk]
        cases hb : (k' == p1) with
        | true => simp only [List.lookup, hb]
        | false =>
          simp only [List.lookup, hb]
          simpa using ih
  have happ : ∀ (d : List (String × β)),
      List.lookup k' (d ++ [(k, v)]) = List.lookup k' d := by
    intro d
    induction d with
    | nil => simp [List.lookup, h]
    | cons p d ih =>
      rcases p with ⟨p1, p2⟩
      simp [List.lookup, ih]
  intro d
  unfold dictSet
  by_cases hin : d.any (fun p => p.1 == k) = true
  · rw [if_pos hin]
    exact hmain d
  · rw [if_neg hin]
    exact happ d

theorem getLast?_cons_or {α : Type} (o : α) (fr : List α) :
    (o :: fr).getLast? = Option.or fr.getLast? (some o) := by
  cases fr with
  | nil => rfl
  | cons a l =>
    rw [List.getLast?_cons_cons]
    have : (a :: l).getLast?.isSome := by
      rw [List.getLast?_isSome]
      simp
    rcases Option.isSome_iff_exists.mp this with ⟨x, hx⟩
    rw [hx]
    rfl

/-- `flag_map` lookup is the last `--name=value` token with that name. -/
theorem buildFlagMap_lookup (n : String) :
    ∀ (opts : List String),
      List.lookup n (buildFlagMap opts) =
        (opts.filter (fun o =>
          (pyStartsWith o "--" && containsChar o '=') &&
            (optionName o == n))).getLast? := by
  have hgen : ∀ (opts : List String) (acc : List (String × String)),
      List.lookup n (opts.foldl (fun m opt =>
        if pyStartsWith opt "--" && containsChar opt '=' then
          dictSet m (optionName opt) opt
        else m) acc) =
      Option.or
        ((opts.filter (fun o =>
          (pyStartsWith o "--" && containsChar o '=') &&
            (optionName o == n))).getLast?)
        (List.lookup n acc) := by
    intro opts
    induction opts with
    | nil => intro acc; simp
    | cons o opts ih =>
      intro acc
      rw [List.foldl_cons]
      by_cases ho : (pyStartsWith o "--" && containsChar o '=') = true
      · by_cases hn : (optionName o == n) = true
        · rw [if_pos ho, ih]
          have hon : optionName o = n := by simpa using hn
          have hlk : List.lookup n (dictSet acc (optionName o) o) = some o := by
            rw [hon]
            exact dictSet_lookup_self acc n o
          rw [hlk, List.filter_cons, if_pos (by rw [ho, hn]; rfl),
            getLast?_cons_or, Option.or_assoc]
          rfl
        · rw [if_pos ho, ih]
          have hn2 : (optionName o == n) = false := by
            cases hb : (optionName o == n)
            · rfl
            · exact absurd hb hn
          have hnn : (n == optionName o) = false := by
            have hne : optionName o ≠ n := by simpa using hn2
            simp [Ne.symm hne]
          rw [dictSet_lookup_ne (optionName o) n o hnn acc,
            List.filter_cons, if_neg (by rw [ho, hn2]; simp)]
      · have ho2 : (pyStartsWith o "--" && containsChar o '=') = false := by
          cases hb : (pyStartsWith o "--" && containsChar o '=')
          · rfl
          · exact absurd hb ho
        rw [if_neg ho, ih, List.filter_cons, if_neg (by rw [ho2]; simp)]
  intro opts
  unfold buildFlagMap
  rw [hgen opts []]
  simp [List.lookup]

/-- The first loop of `normalize_command_options` appends the preferred
tokens and the used names in preferred order. -/
theorem prefLoop_eq (flagMap : List (String × String)) :
    ∀ (preferred : List String) (acc : List String × List String),
      preferred.foldl (fun acc name =>
        match List.lookup name flagMap with
        | some opt => (acc.1 ++ [opt], acc.2 ++ [name])
        | none => acc) acc =
      (acc.1 ++ preferred.filterMap (fun n => List.lookup n flagMap),
       acc.2 ++ preferred.filter (fun n => (List.lookup n flagMap).isSome)) := by
  intro preferred
  induction preferred with
  | nil => intro acc; simp
  | cons n pref ih =>
    intro acc
    rw [List.foldl_cons]
    cases hl : List.lookup n flagMap with
    | none =>
      simp only [hl]
      rw [ih acc, List.filterMap_cons, List.filter_cons]
      simp [hl]
    | some o =>
      simp only [hl]
      rw [ih (acc.1 ++ [o], acc.2 ++ [n]), List.filterMap_cons,
        List.filter_cons]
      simp [hl]

/-- The second loop of `normalize_command_options` appends the unused
option tokens in original order. -/
theorem filterLoop_eq (q : String → Bool) :
    ∀ (opts : List String) (init : List String),
      opts.foldl (fun acc opt => if q opt then acc else acc ++ [opt]) init =
        init ++ opts.filter (fun o => !q o) := by
  intro opts
  induction opts with
  | nil => intro init; simp
  | cons o opts ih =>
    intro init
    rw [List.foldl_cons]
    by_cases ho : q o = true
    · rw [if_pos ho, ih, List.filter_cons]
      simp [ho]
    · have ho2 : q o = false := by
        cases hb : q o
        · rfl
        · exact absurd hb ho
      rw [if_neg ho, ih, List.filter_cons]
      simp [ho2]

theorem contains_filter (p : String → Bool) (l : List String) (a : String) :
    (l.filter p).contains a = (l.contains a && p a) := by
  cases hfc : (l.filter p).contains a
  · cases hc : l.contains a
    · rfl
    · cases hp : p a
      · rfl
      · exfalso
        have hal : a ∈ l := List.elem_iff.mp hc
        have hmem : a ∈ l.filter p := List.mem_filter.mpr ⟨hal, hp⟩
        have : (l.filter p).contains a = true := List.elem_iff.mpr hmem
        rw [hfc] at this
        cases this
  · have hm := List.elem_iff.mp hfc
    have h2 := List.mem_filter.mp hm
    have hc : l.contains a = true := List.elem_iff.mpr h2.1
    rw [hc, h2.2]
    rfl

theorem isSome_getLast? {α : Type} (l : List α) :
    l.getLast?.isSome = !l.isEmpty := by
  cases l with
  | nil => rfl
  | cons a t =>
    have h : (a :: t).getLast?.isSome = true :=
      List.getLast?_isSome.mpr (by simp)
    rw [h]
    rfl

/-- The rebuilt command line as C8 describes it: the command name, then
the `--name=value` option tokens whose name appears in `preferred_order`
in that order (for a repeated name, the token the flag map retains, i.e.
the last one), then the remaining option tokens in their original
relative order, then the positional tokens unmodified.  A second,
spec-side definition, stated for comparison with `normalizeTokens`. -/
def normalizeTokensSpec (tokens preferred : List String) : String :=
  match tokens with
  | [] => ""
  | cmd :: ts =>
    let opts := ts.takeWhile (fun t => pyStartsWith t "-")
    let rest := ts.dropWhile (fun t => pyStartsWith t "-")
    let isLongEq := fun (o : String) =>
      pyStartsWith o "--" && containsChar o '='
    let withName := fun (n : String) =>
      opts.filter (fun o => isLongEq o && (optionName o == n))
    let prefPart := preferred.filterMap (fun n => (withName n).getLast?)
    let usedName := fun (n : String) =>
      preferred.contains n && !(withName n).isEmpty
    let remaining :=
      opts.filter (fun o => !(isLongEq o && usedName (optionName o)))
    String.intercalate " " (cmd :: (prefPart ++ remaining) ++ rest)

/-- The imperative per-line normalization equals its declarative
description. -/
theorem normalizeTokens_spec (tokens preferred : List String) :
    normalizeTokens tokens preferred = normalizeTokensSpec tokens preferred := by
  cases tokens with
  | nil => rfl
  | cons cmd ts =>
    unfold normalizeTokens normalizeTokensSpec
    dsimp only
    rw [prefLoop_eq
      (buildFlagMap (ts.takeWhile (fun t => pyStartsWith t "-")))
      preferred ([], [])]
    dsimp only
    rw [filterLoop_eq _ (ts.takeWhile (fun t => pyStartsWith t "-")) _]
    have hf1 : (fun n => List.lookup n
        (buildFlagMap (ts.takeWhile (fun t => pyStartsWith t "-")))) =
        (fun n => ((ts.takeWhile (fun t => pyStartsWith t "-")).filter
          (fun o => (pyStartsWith o "--" && containsChar o '=') &&
            (optionName o == n))).getLast?) := by
      funext n
      exact buildFlagMap_lookup n (ts.takeWhile (fun t => pyStartsWith t "-"))
    have hf2 : (fun o => !(pyStartsWith o "--" && containsChar o '=' &&
        ((preferred.filter (fun n => (List.lookup n
          (buildFlagMap (ts.takeWhile (fun t => pyStartsWith t "-")))).isSome)).contains
          (optionName o)))) =
        (fun o => !((pyStartsWith o "--" && containsChar o '=') &&
          (preferred.contains (optionName o) &&
            !((ts.takeWhile (fun t => pyStartsWith t "-")).filter
              (fun q => (pyStartsWith q "--" && containsChar q '=') &&
                (optionName q == optionName o))).isEmpty))) := by
      funext o
      rw [contains_filter]
      rw [buildFlagMap_lookup (optionName o), isSome_getLast?]
    rw [List.nil_append, List.nil_append] at *
    rw [hf1, hf2]

theorem normCmdGo_none_map (cmd : String) (pref : List String) :
    ∀ (lines : List String) (seen : Nat),
      (∀ l ∈ lines, pyStartsWith (pyStrip l) (cmd ++ " ") = true →
        ∃ toks, shlexSplit (pyStrip l) = .ok toks) →
      normCmdGo cmd pref none lines seen =
        .ok (lines.map (fun l =>
          if pyStartsWith (pyStrip l) (cmd ++ " ") = true then
            match shlexSplit (pyStrip l) with
            | .ok toks =>
              if toks.isEmpty then l else normalizeTokens toks pref
            | .error _ => l
          else l)) := by
  intro lines
  induction lines with
  | nil => intro seen _; rfl
  | cons l rest ih =>
    intro seen h
    rw [List.map_cons]
    by_cases hm : pyStartsWith (pyStrip l) (cmd ++ " ") = true
    · obtain ⟨toks, htoks⟩ := h l (List.mem_cons_self l rest) hm
      unfold normCmdGo
      dsimp only
      rw [if_neg (by simp [hm])]
      rw [if_neg (by simp)]
      rw [htoks]
      dsimp only
      by_cases he : toks.isEmpty = true
      · rw [if_pos he,
          ih (seen + 1) (fun q hq hqq => h q (List.mem_cons_of_mem l hq) hqq)]
        simp [Except.map, hm, htoks, he]
      · rw [if_neg he,
          ih (seen + 1) (fun q hq hqq => h q (List.mem_cons_of_mem l hq) hqq)]
        have he2 : toks.isEmpty = false := by
          cases hb : toks.isEmpty
          · rfl
          · exact absurd hb he
        simp [Except.map, hm, htoks, he2]
    · have hm2 : pyStartsWith (pyStrip l) (cmd ++ " ") = false := by
        cases hb : pyStartsWith (pyStrip l) (cmd ++ " ")
        · rfl
        · exact absurd hb hm
      unfold normCmdGo
      dsimp only
      rw [if_pos hm2,
        ih seen (fun q hq hqq => h q (List.mem_cons_of_mem l hq) hqq)]
      simp [Except.map, hm2]

/-! ## C8: option-order normalization -/

/-- C8: for every script and preferred order, `normalize_command_options`
(over all occurrences) rewrites exactly the matching, tokenizable command
lines, rebuilding each as the command name, then the `--name=value`
option tokens whose name appears in `preferred_order` first in that
order, then all remaining option tokens (including bare flags) in their
original relative order, then the positional tokens unmodified (as stated
by `normalizeTokensSpec`); in particular `cmd -a --b=2 --c=3 pos1` with
preferred order `["--c", "--b"]` becomes `cmd --c=3 --b=2 -a pos1`. -/
theorem c8_normalize_command_options :
    (∀ (lines : List String) (cmd : String) (pref : List String),
      (∀ l ∈ lines, pyStartsWith (pyStrip l) (cmd ++ " ") = true →
        ∃ toks, shlexSplit (pyStrip l) = .ok toks) →
      normalizeCommandOptions lines cmd pref none =
        .ok (lines.map (fun l =>
          if pyStartsWith (pyStrip l) (cmd ++ " ") = true then
            match shlexSplit (pyStrip l) with
            | .ok toks =>
              if toks.isEmpty then l else normalizeTokensSpec toks pref
            | .error _ => l
          else l))) ∧
    normalizeCommandOptions ["cmd -a --b=2 --c=3 pos1"] "cmd"
        ["--c", "--b"] none = .ok ["cmd --c=3 --b=2 -a pos1"] := by
  constructor
  · intro lines cmd pref h
    have hgo := normCmdGo_none_map cmd pref lines 0 h
    unfold normalizeCommandOptions
    rw [hgo]
    simp only [normalizeTokens_spec]
  · exact rfl

/-- Witness for C8 on a two-line script with one matching line. -/
theorem c8_witness :
    normalizeCommandOptions ["echo x", "cmd -a --b=2 pos"] "cmd" ["--b"]
      none = .ok ["echo x", "cmd --b=2 -a pos"] := by
  have h := c8_normalize_command_options.1 ["echo x", "cmd -a --b=2 pos"]
    "cmd" ["--b"] ?_
  · exact h.trans (by exact rfl)
  · intro l hl hm
    rcases List.mem_cons.mp hl with h1 | h2
    · rw [h1] at hm
      exact absurd hm (by decide)
    · rcases List.mem_singleton.mp h2 with rfl
      exact ⟨["cmd", "-a", "--b=2", "pos"], by exact rfl⟩

/-! ## Infrastructure for the config round trip (C1) -/

/-- A character that serialization and re-parsing treat inertly: a plain
space, or a non-whitespace character that is not a quote, comment marker,
statement separator or backslash. -/
def plainChar (c : Char) : Bool :=
  c == ' ' ||
    (!pyIsSpace c &&
      !(c == '"' || c == '#' || c == '!' || c == ';' || c == '\\'))

/-- All characters plain. -/
def plainStr (s : String) : Bool :=
  s.data.all plainChar

/-- A name serialization round-trips: plain, non-empty, trimmed, without
`=`. -/
def goodName (s : String) : Bool :=
  plainStr s && !(s == "") && (pyStrip s == s) && !containsChar s '='

/-- A value serialization round-trips: plain and trimmed. -/
def goodValue (s : String) : Bool :=
  plainStr s && (pyStrip s == s)

/-- A comment serialization round-trips: plain and trimmed. -/
def goodComment (s : String) : Bool :=
  plainStr s && (pyStrip s == s)

theorem stringDataExt (a b : String) (h : a.data = b.data) : a = b := by
  cases a with
  | mk d =>
    cases b with
    | mk d2 =>
      rw [show (String.mk d).data = d from rfl,
        show (String.mk d2).data = d2 from rfl] at h
      rw [h]

theorem dropWhile_length_le {α : Type} (p : α → Bool) :
    ∀ (l : List α), (l.dropWhile p).length ≤ l.length := by
  intro l
  induction l with
  | nil => simp
  | cons c t ih =>
    rw [List.dropWhile_cons]
    by_cases hp : p c = true
    · rw [if_pos hp]
      rw [List.length_cons]
      omega
    · rw [if_neg hp]

theorem dropWhile_length_eq {α : Type} (p : α → Bool) :
    ∀ (l : List α), (l.dropWhile p).length = l.length → l.dropWhile p = l := by
  intro l
  cases l with
  | nil => intro _; rfl
  | cons c t =>
    intro h
    by_cases hp : p c = true
    · rw [List.dropWhile_cons, if_pos hp] at h
      have hle := dropWhile_length_le p t
      rw [List.length_cons] at h
      omega
    · rw [List.dropWhile_cons, if_neg hp]

theorem pyStrip_parts (s : String) (h : pyStrip s = s) :
    s.data.dropWhile pyIsSpace = s.data ∧
      s.data.reverse.dropWhile pyIsSpace = s.data.reverse := by
  have hd : rstripL (lstripL s.data) = s.data := congrArg String.data h
  have h1 : (lstripL s.data).length ≤ s.data.length :=
    dropWhile_length_le _ _
  have h2 : (rstripL (lstripL s.data)).length ≤ (lstripL s.data).length := by
    unfold rstripL
    rw [List.length_reverse]
    calc ((lstripL s.data).reverse.dropWhile pyIsSpace).length
        ≤ (lstripL s.data).reverse.length := dropWhile_length_le _ _
      _ = (lstripL s.data).length := List.length_reverse _
  have hlen : (lstripL s.data).length = s.data.length := by
    have h3 := congrArg List.length hd
    omega
  have hls : lstripL s.data = s.data := dropWhile_length_eq _ _ hlen
  refine ⟨hls, ?_⟩
  rw [hls] at hd
  unfold rstripL at hd
  have h4 := congrArg List.reverse hd
  rwa [List.reverse_reverse] at h4

theorem pyStrip_mk (l : List Char) (h1 : l.dropWhile pyIsSpace = l)
    (h2 : l.reverse.dropWhile pyIsSpace = l.reverse) :
    pyStrip ⟨l⟩ = ⟨l⟩ := by
  unfold pyStrip lstripL rstripL
  rw [show (String.mk l).data = l from rfl, h1, h2, List.reverse_reverse]

theorem dropWhile_cons_head {α : Type} (p : α → Bool) (c : α) (t : List α)
    (h : (c :: t).dropWhile p = c :: t) : p c = false := by
  by_cases hp : p c = true
  · rw [List.dropWhile_cons, if_pos hp] at h
    have hle := dropWhile_length_le p t
    have := congrArg List.length h
    rw [List.length_cons] at this
    omega
  · cases hb : p c
    · rfl
    · exact absurd hb hp

theorem dropWhile_append_nonspace {α : Type} (p : α → Bool) (c : α)
    (t rest : List α) (hc : p c = false) :
    ((c :: t) ++ rest).dropWhile p = (c :: t) ++ rest := by
  rw [List.cons_append, List.dropWhile_cons, if_neg (by rw [hc]; simp)]

/-- The serialized tail of an entry line: `  # <comment>` when the comment
is non-empty. -/
def cmtPart (c : String) : String :=
  if c ≠ "" then "  # " ++ c else ""

/-- The serialized line of a single-line entry. -/
def lineOf (n v c : String) : String :=
  n ++ " = " ++ v ++ cmtPart c

theorem plain_ne (c c0 : Char) (h : plainChar c = true)
    (hc0 : plainChar c0 = false) : (c == c0) = false := by
  cases hb : (c == c0)
  · rfl
  · have he : c = c0 := by simpa using hb
    rw [he, hc0] at h
    cases h

theorem plain_space (c : Char) (h : plainChar c = true) :
    pyIsSpace c = (c == ' ') := by
  by_cases hs : c = ' '
  · subst hs
    decide
  · have hne : (c == ' ') = false := by simp [hs]
    rw [hne]
    unfold plainChar at h
    rw [hne] at h
    simp at h
    exact h.1

theorem plain_not_contains (s : String) (c0 : Char) (h : plainStr s = true)
    (hc0 : plainChar c0 = false) : containsChar s c0 = false := by
  cases hb : containsChar s c0
  · rfl
  · exfalso
    have hm : c0 ∈ s.data := List.elem_iff.mp hb
    have hp := List.all_eq_true.mp h c0 hm
    rw [hc0] at hp
    cases hp

theorem break_space (c : Char) (h : isLineBreak c = true) :
    pyIsSpace c = true := by
  unfold isLineBreak at h
  have hm : c ∈ ['\n', '\r', '\x0b', '\x0c', '\x1c', '\x1d', '\x1e',
      '\x85', '\u2028', '\u2029'] := List.elem_iff.mp h
  fin_cases hm <;> decide

theorem plain_not_break (c : Char) (h : plainChar c = true) :
    isLineBreak c = false := by
  cases hb : isLineBreak c
  · rfl
  · exfalso
    have hsp := break_space c hb
    by_cases hs : c = ' '
    · subst hs
      exact absurd hb (by decide)
    · unfold plainChar at h
      rw [show (c == ' ') = false from by simp [hs]] at h
      simp at h
      rw [hsp] at h
      exact absurd h.1 (by simp)

theorem plain_all_nonbreak (s : String) (h : plainStr s = true) :
    s.data.all (fun c => !isLineBreak c) = true := by
  rw [List.all_eq_true]
  intro c hc
  have hp := List.all_eq_true.mp h c hc
  rw [plain_not_break c hp]
  rfl

theorem mem_dropWhile {α : Type} (p : α → Bool) (c : α) :
    ∀ (l : List α), c ∈ l.dropWhile p → c ∈ l := by
  intro l
  induction l with
  | nil => intro h; exact h
  | cons a t ih =>
    intro h
    rw [List.dropWhile_cons] at h
    by_cases hp : p a = true
    · rw [if_pos hp] at h
      exact List.mem_cons_of_mem a (ih h)
    · rw [if_neg hp] at h
      exact h

theorem mem_rstripL (c : Char) (l : List Char) (h : c ∈ rstripL l) :
    c ∈ l := by
  unfold rstripL at h
  rw [List.mem_reverse] at h
  have := mem_dropWhile pyIsSpace c l.reverse h
  rwa [List.mem_reverse] at this

theorem no_bs_not_endsWith (s : String)
    (h : ∀ ch ∈ s.data, (ch == '\\') = false) :
    pyEndsWith (pyRstrip s) "\\" = false := by
  cases hb : pyEndsWith (pyRstrip s) "\\"
  · rfl
  · exfalso
    unfold pyEndsWith at hb
    have hsuf : "\\".data <:+ (pyRstrip s).data :=
      List.isSuffixOf_iff_suffix.mp hb
    rcases hsuf with ⟨pre, hpre⟩
    have hmem : '\\' ∈ (pyRstrip s).data := by
      rw [← hpre]
      simp [String.data]
    have hmem2 : '\\' ∈ s.data := mem_rstripL '\\' s.data hmem
    have := h '\\' hmem2
    simp at this

theorem ne_empty_data (s : String) (h : s ≠ "") : s.data ≠ [] := by
  intro hd
  exact h (stringDataExt s "" hd)

theorem trimmed_head (s : String) (h : pyStrip s = s) (hne : s.data ≠ []) :
    ∃ c t, s.data = c :: t ∧ pyIsSpace c = false := by
  rcases hd : s.data with _ | ⟨c, t⟩
  · exact absurd hd hne
  · refine ⟨c, t, rfl, ?_⟩
    have h1 := (pyStrip_parts s h).1
    rw [hd] at h1
    exact dropWhile_cons_head _ _ _ h1

theorem trimmed_last (s : String) (h : pyStrip s = s) (hne : s.data ≠ []) :
    ∃ c t, s.data.reverse = c :: t ∧ pyIsSpace c = false := by
  rcases hd : s.data.reverse with _ | ⟨c, t⟩
  · exfalso
    apply hne
    have h2 := congrArg List.reverse hd
    simpa using h2
  · refine ⟨c, t, rfl, ?_⟩
    have h2 := (pyStrip_parts s h).2
    rw [hd] at h2
    exact dropWhile_cons_head _ _ _ h2

theorem goodName_parts (s : String) (h : goodName s = true) :
    plainStr s = true ∧ s ≠ "" ∧ pyStrip s = s ∧
      containsChar s '=' = false := by
  unfold goodName at h
  rw [Bool.and_eq_true, Bool.and_eq_true, Bool.and_eq_true] at h
  refine ⟨h.1.1.1, ?_, ?_, ?_⟩
  · have := h.1.1.2
    simpa using this
  · have := h.1.2
    simpa using this
  · have := h.2
    simpa using this

theorem goodValue_parts (s : String) (h : goodValue s = true) :
    plainStr s = true ∧ pyStrip s = s := by
  unfold goodValue at h
  rw [Bool.and_eq_true] at h
  refine ⟨h.1, by simpa using h.2⟩

theorem goodComment_parts (s : String) (h : goodComment s = true) :
    plainStr s = true ∧ pyStrip s = s := by
  unfold goodComment at h
  rw [Bool.and_eq_true] at h
  refine ⟨h.1, by simpa using h.2⟩

theorem rstrip_id_of_last (l : List Char) (c : Char) (t : List Char)
    (h : l.reverse = c :: t) (hc : pyIsSpace c = false) :
    l.reverse.dropWhile pyIsSpace = l.reverse := by
  rw [h, List.dropWhile_cons, if_neg (by rw [hc]; simp)]

theorem lineOf_data (n v c : String) :
    (lineOf n v c).data =
      n.data ++ ' ' :: '=' :: ' ' :: (v.data ++ (cmtPart c).data) := by
  unfold lineOf
  rw [String.data_append, String.data_append, String.data_append]
  simp

theorem cmtPart_data_ne (c : String) (h : c ≠ "") :
    (cmtPart c).data = ' ' :: ' ' :: '#' :: ' ' :: c.data := by
  unfold cmtPart
  rw [if_pos h, String.data_append]
  rfl

theorem pyStrip_string_of_parts (s : String)
    (h1 : s.data.dropWhile pyIsSpace = s.data)
    (h2 : s.data.reverse.dropWhile pyIsSpace = s.data.reverse) :
    pyStrip s = s := by
  have := pyStrip_mk s.data h1 h2
  exact this

theorem lstrip_of_decomp (s : String) (first : String) (y : List Char)
    (hform : s.data = first.data ++ y) (htr : pyStrip first = first)
    (hne : first ≠ "") :
    s.data.dropWhile pyIsSpace = s.data := by
  obtain ⟨ch, tl, hcd, hch⟩ := trimmed_head first htr (ne_empty_data first hne)
  rw [hform, hcd]
  exact dropWhile_append_nonspace _ _ _ _ hch

theorem rstrip_of_decomp (s : String) (x : List Char) (last : String)
    (hform : s.data = x ++ last.data) (htr : pyStrip last = last)
    (hne : last ≠ "") :
    s.data.reverse.dropWhile pyIsSpace = s.data.reverse := by
  obtain ⟨ch, tl, hcd, hch⟩ := trimmed_last last htr (ne_empty_data last hne)
  apply rstrip_id_of_last _ ch (tl ++ x.reverse)
  · rw [hform, List.reverse_append, hcd, List.cons_append]
  · exact hch

theorem pyStrip_lineOf (n v c : String) (hn : goodName n = true)
    (hv : goodValue v = true) (hc : goodComment c = true)
    (hne : ¬(c = "" ∧ v = "")) :
    pyStrip (lineOf n v c) = lineOf n v c := by
  obtain ⟨_, hnne, hntrim, _⟩ := goodName_parts n hn
  apply pyStrip_string_of_parts
  · exact lstrip_of_decomp _ n
      (' ' :: '=' :: ' ' :: (v.data ++ (cmtPart c).data))
      (lineOf_data n v c) hntrim hnne
  · by_cases hcc : c = ""
    · have hvv : v ≠ "" := fun hvv => hne ⟨hcc, hvv⟩
      apply rstrip_of_decomp _ (n.data ++ [' ', '=', ' ']) v
      · rw [lineOf_data, hcc]
        unfold cmtPart
        rw [if_neg (by simp)]
        simp
      · exact (goodValue_parts v hv).2
      · exact hvv
    · apply rstrip_of_decomp _
        (n.data ++ [' ', '=', ' '] ++ v.data ++ [' ', ' ', '#', ' ']) c
      · rw [lineOf_data, cmtPart_data_ne c hcc]
        simp
      · exact (goodComment_parts c hc).2
      · exact hcc

theorem pyStrip_lineOf_empty (n : String) (hn : goodName n = true) :
    pyStrip (lineOf n "" "") = n ++ " =" := by
  obtain ⟨_, hnne, hntrim, _⟩ := goodName_parts n hn
  obtain ⟨nh, nt, hnd, hnh⟩ := trimmed_head n hntrim (ne_empty_data n hnne)
  apply stringDataExt
  show rstripL (lstripL (lineOf n "" "").data) = (n ++ " =").data
  have hdata : (lineOf n "" "").data = n.data ++ [' ', '=', ' '] := by
    rw [lineOf_data]
    unfold cmtPart
    rw [if_neg (by simp)]
    simp
  have h1 : lstripL (lineOf n "" "").data = n.data ++ [' ', '=', ' '] := by
    unfold lstripL
    rw [hdata, hnd]
    exact dropWhile_append_nonspace _ _ _ _ hnh
  rw [h1]
  unfold rstripL
  have hrev : (n.data ++ [' ', '=', ' ']).reverse =
      ' ' :: '=' :: ' ' :: n.data.reverse := by
    rw [List.reverse_append]
    rfl
  rw [hrev, List.dropWhile_cons, if_pos (by decide), List.dropWhile_cons,
    if_neg (by decide)]
  rw [show (n ++ " =").data = n.data ++ [' ', '='] from by
    rw [String.data_append]]
  rw [show ('=' :: ' ' :: n.data.reverse).reverse =
    (n.data.reverse.reverse) ++ [' ', '='] from by simp]
  rw [List.reverse_reverse]

theorem beq_comm_false (a b : Char) (h : (a == b) = false) :
    (b == a) = false := by
  have hne : a ≠ b := by simpa using h
  simp [Ne.symm hne]

theorem singleton_isPrefixOf_cons (c0 c : Char) (t : List Char) :
    [c0].isPrefixOf (c :: t) = (c0 == c) := by
  simp [List.isPrefixOf]

theorem contains_false_forall (s : String) (c0 : Char)
    (h : containsChar s c0 = false) :
    ∀ ch ∈ s.data, (ch == c0) = false := by
  intro ch hch
  cases hb : (ch == c0)
  · rfl
  · exfalso
    have he : ch = c0 := by simpa using hb
    subst he
    have : containsChar s ch = true := List.elem_iff.mpr hch
    rw [h] at this
    cases this

theorem splitCommentL_no_marker :
    ∀ (a : List Char),
      (∀ ch ∈ a, ((ch == '"') || (ch == '#') || (ch == '!')) = false) →
      splitCommentL a false = (a, none) := by
  intro a
  induction a with
  | nil => intro _; rfl
  | cons ch a ih =>
    intro h
    have hch := h ch (List.mem_cons_self ch a)
    have hq : ¬ ch = '"' := by
      intro he
      subst he
      simp at hch
    have hm : ¬ ((ch = '#' ∨ ch = '!') ∧ (false : Bool) = false) := by
      intro hcon
      rcases hcon.1 with he | he <;> (subst he; simp at hch)
    unfold splitCommentL
    rw [if_neg hq, if_neg hm,
      ih (fun q hq2 => h q (List.mem_cons_of_mem ch hq2))]

theorem splitCommentL_marker :
    ∀ (a b : List Char),
      (∀ ch ∈ a, ((ch == '"') || (ch == '#') || (ch == '!')) = false) →
      splitCommentL (a ++ '#' :: b) false = (a, some b) := by
  intro a b
  induction a with
  | nil =>
    intro _
    rw [List.nil_append]
    unfold splitCommentL
    dsimp only
    rw [if_neg (by decide), if_pos ⟨Or.inl rfl, rfl⟩]
  | cons ch a ih =>
    intro h
    have hch := h ch (List.mem_cons_self ch a)
    have hq : ¬ ch = '"' := by
      intro he
      subst he
      simp at hch
    have hm : ¬ ((ch = '#' ∨ ch = '!') ∧ (false : Bool) = false) := by
      intro hcon
      rcases hcon.1 with he | he <;> (subst he; simp at hch)
    rw [List.cons_append]
    unfold splitCommentL
    rw [if_neg hq, if_neg hm,
      ih (fun q hq2 => h q (List.mem_cons_of_mem ch hq2))]

theorem splitStatementsL_plain :
    ∀ (a : List Char),
      (∀ ch ∈ a, ((ch == '"') || (ch == ';')) = false) →
      splitStatementsL a false = [a] := by
  intro a
  induction a with
  | nil => intro _; rfl
  | cons ch a ih =>
    intro h
    have hch := h ch (List.mem_cons_self ch a)
    have hq : ¬ ch = '"' := by
      intro he
      subst he
      simp at hch
    have hs : ¬ (ch = ';' ∧ (false : Bool) = false) := by
      intro hcon
      rcases hcon with ⟨he, _⟩
      subst he
      simp at hch
    unfold splitStatementsL
    rw [if_neg hq, if_neg hs,
      ih (fun q hq2 => h q (List.mem_cons_of_mem ch hq2))]

theorem takeWhile_all_append {α : Type} (p : α → Bool) :
    ∀ (a b : List α), (∀ x ∈ a, p x = true) →
      (a ++ b).takeWhile p = a ++ b.takeWhile p := by
  intro a b
  induction a with
  | nil => intro _; simp
  | cons x a ih =>
    intro h
    rw [List.cons_append, List.takeWhile_cons,
      if_pos (h x (List.mem_cons_self x a)),
      ih (fun q hq => h q (List.mem_cons_of_mem x hq)), List.cons_append]

theorem dropWhile_all_append {α : Type} (p : α → Bool) :
    ∀ (a b : List α), (∀ x ∈ a, p x = true) →
      (a ++ b).dropWhile p = b.dropWhile p := by
  intro a b
  induction a with
  | nil => intro _; simp
  | cons x a ih =>
    intro h
    rw [List.cons_append, List.dropWhile_cons,
      if_pos (h x (List.mem_cons_self x a)),
      ih (fun q hq => h q (List.mem_cons_of_mem x hq))]

/-- The statement text a good single-line entry reduces to after comment
splitting and stripping. -/
def stmtOf (n v : String) : String :=
  if v = "" then n ++ " =" else n ++ " = " ++ v

theorem pyStrip_name_space (n : String) (htr : pyStrip n = n)
    (hne : n ≠ "") : pyStrip (n ++ " ") = n := by
  obtain ⟨nh, nt, hnd, hnh⟩ := trimmed_head n htr (ne_empty_data n hne)
  apply stringDataExt
  show rstripL (lstripL (n ++ " ").data) = n.data
  have hd : (n ++ " ").data = n.data ++ [' '] := by
    rw [String.data_append]
  have h1 : lstripL (n.data ++ [' ']) = n.data ++ [' '] := by
    unfold lstripL
    rw [hnd]
    exact dropWhile_append_nonspace _ _ _ _ hnh
  rw [hd, h1]
  unfold rstripL
  have hrev : (n.data ++ [' ']).reverse = ' ' :: n.data.reverse := by
    rw [List.reverse_append]
    rfl
  rw [hrev, List.dropWhile_cons, if_pos (by decide),
    (pyStrip_parts n htr).2, List.reverse_reverse]

theorem pyStrip_space_value (v : String) (htr : pyStrip v = v) :
    pyStrip (" " ++ v) = v := by
  by_cases hv : v = ""
  · subst hv
    decide
  · apply stringDataExt
    show rstripL (lstripL (" " ++ v).data) = v.data
    have hd : (" " ++ v).data = ' ' :: v.data := by
      rw [String.data_append]
      rfl
    rw [hd]
    unfold lstripL
    rw [List.dropWhile_cons, if_pos (by decide), (pyStrip_parts v htr).1]
    unfold rstripL
    rw [(pyStrip_parts v htr).2, List.reverse_reverse]

theorem strip_name_eq_spaces (n : String) (hn : goodName n = true)
    (sp : List Char) (hsp : ∀ x ∈ sp, pyIsSpace x = true) :
    pyStrip ⟨n.data ++ ' ' :: '=' :: sp⟩ = n ++ " =" := by
  obtain ⟨_, hnne, hntrim, _⟩ := goodName_parts n hn
  obtain ⟨nh, nt, hnd, hnh⟩ := trimmed_head n hntrim (ne_empty_data n hnne)
  apply stringDataExt
  show rstripL (lstripL (n.data ++ ' ' :: '=' :: sp)) = (n ++ " =").data
  have h1 : lstripL (n.data ++ ' ' :: '=' :: sp) =
      n.data ++ ' ' :: '=' :: sp := by
    unfold lstripL
    rw [hnd]
    exact dropWhile_append_nonspace _ _ _ _ hnh
  rw [h1]
  unfold rstripL
  have hrev : (n.data ++ ' ' :: '=' :: sp).reverse =
      sp.reverse ++ '=' :: ' ' :: n.data.reverse := by
    rw [show n.data ++ ' ' :: '=' :: sp = (n.data ++ [' ', '=']) ++ sp from
      by simp, List.reverse_append, List.reverse_append]
    rfl
  rw [hrev, dropWhile_all_append _ _ _
    (fun x hx => hsp x (by rwa [List.mem_reverse] at hx)),
    List.dropWhile_cons, if_neg (by decide)]
  rw [show (n ++ " =").data = n.data ++ [' ', '='] from by
    rw [String.data_append]]
  rw [show ('=' :: ' ' :: n.data.reverse).reverse =
    (n.data.reverse.reverse) ++ [' ', '='] from by simp]
  rw [List.reverse_reverse]

theorem strip_codeL (n v : String) (hn : goodName n = true)
    (hv : goodValue v = true) :
    pyStrip ⟨n.data ++ ' ' :: '=' :: ' ' :: (v.data ++ [' ', ' '])⟩ =
      stmtOf n v := by
  obtain ⟨_, hnne, hntrim, _⟩ := goodName_parts n hn
  obtain ⟨_, hvtrim⟩ := goodValue_parts v hv
  by_cases hvv : v = ""
  · subst hvv
    unfold stmtOf
    rw [if_pos rfl]
    have hform : ("" : String).data ++ [' ', ' '] = ([' ', ' '] : List Char) := by
      rfl
    rw [show (' ' :: '=' :: ' ' :: (("" : String).data ++ [' ', ' '])) =
      (' ' :: '=' :: [' ', ' ', ' ']) from by rw [hform]]
    exact strip_name_eq_spaces n hn [' ', ' ', ' '] (by decide)
  · unfold stmtOf
    rw [if_neg hvv]
    obtain ⟨nh, nt, hnd, hnh⟩ := trimmed_head n hntrim (ne_empty_data n hnne)
    obtain ⟨vh, vt, hvd, hvh⟩ := trimmed_last v hvtrim (ne_empty_data v hvv)
    apply stringDataExt
    show rstripL (lstripL (n.data ++ ' ' :: '=' :: ' ' ::
      (v.data ++ [' ', ' ']))) = (n ++ " = " ++ v).data
    have h1 : lstripL (n.data ++ ' ' :: '=' :: ' ' ::
        (v.data ++ [' ', ' '])) =
        n.data ++ ' ' :: '=' :: ' ' :: (v.data ++ [' ', ' ']) := by
      unfold lstripL
      rw [hnd]
      exact dropWhile_append_nonspace _ _ _ _ hnh
    rw [h1]
    unfold rstripL
    have hrev : (n.data ++ ' ' :: '=' :: ' ' ::
        (v.data ++ [' ', ' '])).reverse =
        ' ' :: ' ' :: (v.data.reverse ++
          (' ' :: '=' :: ' ' :: n.data.reverse)) := by
      rw [show n.data ++ ' ' :: '=' :: ' ' :: (v.data ++ [' ', ' ']) =
        ((n.data ++ [' ', '=', ' ']) ++ v.data) ++ [' ', ' '] from by simp,
        List.reverse_append, List.reverse_append, List.reverse_append]
      simp
    rw [hrev, List.dropWhile_cons, if_pos (by decide), List.dropWhile_cons,
      if_pos (by decide)]
    have h2 : (v.data.reverse ++
        (' ' :: '=' :: ' ' :: n.data.reverse)).dropWhile pyIsSpace =
        v.data.reverse ++ (' ' :: '=' :: ' ' :: n.data.reverse) := by
      rw [hvd]
      exact dropWhile_append_nonspace _ _ _ _ hvh
    rw [h2, List.reverse_append, List.reverse_reverse]
    rw [String.data_append, String.data_append]
    simp

theorem splitFirstEq_stmtOf (n v : String) (hn : goodName n = true) :
    splitFirstEq (stmtOf n v) =
      (n ++ " ", if v = "" then "" else " " ++ v) := by
  obtain ⟨_, _, _, hneq⟩ := goodName_parts n hn
  have hall : ∀ x ∈ n.data ++ [' '], (fun c => !(c == '=')) x = true := by
    intro x hx
    rcases List.mem_append.mp hx with h1 | h2
    · show (!(x == '=')) = true
      rw [contains_false_forall n '=' hneq x h1]
      rfl
    · rw [List.mem_singleton.mp h2]
      decide
  have hdata : (stmtOf n v).data =
      (n.data ++ [' ']) ++ '=' ::
        (if v = "" then [] else ' ' :: v.data) := by
    unfold stmtOf
    by_cases hv : v = ""
    · rw [if_pos hv, if_pos hv, String.data_append]
      simp
    · rw [if_neg hv, if_neg hv, String.data_append, String.data_append]
      simp
  unfold splitFirstEq
  rw [hdata, takeWhile_all_append _ _ _ hall, dropWhile_all_append _ _ _ hall,
    List.takeWhile_cons, if_neg (by decide), List.dropWhile_cons,
    if_neg (by decide)]
  rw [List.append_nil]
  have hfst : (⟨n.data ++ [' ']⟩ : String) = n ++ " " := by
    apply stringDataExt
    rw [String.data_append]
  have hsnd : (⟨List.tail ('=' ::
      (if v = "" then [] else ' ' :: v.data))⟩ : String) =
      (if v = "" then "" else " " ++ v) := by
    apply stringDataExt
    by_cases hv : v = ""
    · rw [if_pos hv, if_pos hv]
      rfl
    · rw [if_neg hv, if_neg hv]
      rw [show (" " ++ v).data = ' ' :: v.data from by
        rw [String.data_append]; rfl]
      rfl
  rw [hfst, hsnd]

theorem scan_free_of_plain (s : String) (h : plainStr s = true) :
    ∀ ch ∈ s.data, ((ch == '"') || (ch == '#') || (ch == '!')) = false := by
  intro ch hch
  have hp := List.all_eq_true.mp h ch hch
  rw [plain_ne ch '"' hp (by decide), plain_ne ch '#' hp (by decide),
    plain_ne ch '!' hp (by decide)]
  rfl

theorem stmt_free_of_plain (s : String) (h : plainStr s = true) :
    ∀ ch ∈ s.data, ((ch == '"') || (ch == ';')) = false := by
  intro ch hch
  have hp := List.all_eq_true.mp h ch hch
  rw [plain_ne ch '"' hp (by decide), plain_ne ch ';' hp (by decide)]
  rfl

theorem free_append (p : Char → Bool) (a b : List Char)
    (ha : ∀ ch ∈ a, p ch = false) (hb : ∀ ch ∈ b, p ch = false) :
    ∀ ch ∈ a ++ b, p ch = false := by
  intro ch hch
  rcases List.mem_append.mp hch with h | h
  · exact ha ch h
  · exact hb ch h

theorem stmtOf_data (n v : String) :
    (stmtOf n v).data =
      n.data ++ ' ' :: '=' :: (if v = "" then [] else ' ' :: v.data) := by
  unfold stmtOf
  by_cases hv : v = ""
  · rw [if_pos hv, if_pos hv, String.data_append]
  · rw [if_neg hv, if_neg hv, String.data_append, String.data_append]
    simp

theorem stmtOf_ne_empty (n v : String) (hn : goodName n = true) :
    ¬ stmtOf n v = "" := by
  obtain ⟨_, hnne, _, _⟩ := goodName_parts n hn
  intro he
  have hd := congrArg String.data he
  rw [stmtOf_data] at hd
  rcases hnd : n.data with _ | ⟨c, t⟩
  · exact ne_empty_data n hnne hnd
  · rw [hnd] at hd
    cases hd

theorem stmtOf_contains_eq (n v : String) :
    containsChar (stmtOf n v) '=' = true := by
  have hm : '=' ∈ (stmtOf n v).data := by
    rw [stmtOf_data]
    exact List.mem_append.mpr (Or.inr (by simp))
  exact List.elem_iff.mpr hm

theorem not_startsWith_quote (v : String) (h : plainStr v = true) :
    pyStartsWith v "\"" = false := by
  unfold pyStartsWith
  cases hd : v.data with
  | nil => rfl
  | cons ch t =>
    have hp := List.all_eq_true.mp h ch (by rw [hd]; exact List.mem_cons_self ch t)
    rw [show ("\"".data) = ['"'] from rfl, singleton_isPrefixOf_cons]
    exact beq_comm_false ch '"' (plain_ne ch '"' hp (by decide))

theorem pyStrip_empty : pyStrip "" = "" := by decide

theorem free_cons (p : Char → Bool) (c : Char) (t : List Char)
    (hc : p c = false) (ht : ∀ ch ∈ t, p ch = false) :
    ∀ ch ∈ c :: t, p ch = false := by
  intro ch hch
  rcases List.mem_cons.mp hch with rfl | h
  · exact hc
  · exact ht ch h

theorem splitComment_free (s : String)
    (h : ∀ ch ∈ s.data, ((ch == '"') || (ch == '#') || (ch == '!')) = false) :
    splitComment s = (s, "") := by
  unfold splitComment
  rw [splitCommentL_no_marker s.data h]

theorem splitComment_lineOf_ne (n v c : String) (hn : goodName n = true)
    (hv : goodValue v = true) (hc : goodComment c = true) (hcc : c ≠ "") :
    splitComment (lineOf n v c) =
      (⟨n.data ++ ' ' :: '=' :: ' ' :: (v.data ++ [' ', ' '])⟩, c) := by
  obtain ⟨nplain, _, _, _⟩ := goodName_parts n hn
  obtain ⟨vplain, _⟩ := goodValue_parts v hv
  obtain ⟨_, hctrim⟩ := goodComment_parts c hc
  have hform : (lineOf n v c).data =
      (n.data ++ ' ' :: '=' :: ' ' :: (v.data ++ [' ', ' '])) ++
        '#' :: (' ' :: c.data) := by
    rw [lineOf_data, cmtPart_data_ne c hcc]
    simp
  have hfree : ∀ ch ∈ n.data ++ ' ' :: '=' :: ' ' :: (v.data ++ [' ', ' ']),
      ((ch == '"') || (ch == '#') || (ch == '!')) = false :=
    free_append _ _ _ (scan_free_of_plain n nplain)
      (free_cons _ _ _ (by decide) (free_cons _ _ _ (by decide)
        (free_cons _ _ _ (by decide)
          (free_append _ _ _ (scan_free_of_plain v vplain) (by decide)))))
  unfold splitComment
  rw [hform, splitCommentL_marker _ _ hfree]
  dsimp only
  have hsc : pyStrip ⟨' ' :: c.data⟩ = c := by
    rw [show (⟨' ' :: c.data⟩ : String) = " " ++ c from
      stringDataExt _ _ (by rw [String.data_append]; rfl)]
    exact pyStrip_space_value c hctrim
  rw [hsc]

theorem splitStatements_single (s : String)
    (h : ∀ ch ∈ s.data, ((ch == '"') || (ch == ';')) = false) :
    splitStatements s = [s] := by
  unfold splitStatements
  rw [splitStatementsL_plain s.data h]
  rfl

theorem mergeCont_id : ∀ (ls : List String),
    (∀ l ∈ ls, pyEndsWith (pyRstrip l) "\\" = false) →
    mergeCont ls none = ls := by
  intro ls
  induction ls with
  | nil => intro _; rfl
  | cons a t ih =>
    intro h
    unfold mergeCont
    dsimp only
    rw [if_neg (by rw [h a (List.mem_cons_self a t)]; simp),
      ih (fun q hq => h q (List.mem_cons_of_mem a hq))]

theorem flatten_singletons {α β : Type} (f : α → β) :
    ∀ (l : List α), (l.map (fun x => [f x])).flatten = l.map f := by
  intro l
  induction l with
  | nil => rfl
  | cons a t ih => simp [ih]

theorem entryLines_good (n : String) (e : ConfigEntry)
    (hv : goodValue e.value = true) (hc : goodComment e.comment = true) :
    entryLines n e = [lineOf n e.value e.comment] := by
  obtain ⟨vplain, _⟩ := goodValue_parts e.value hv
  obtain ⟨_, hctrim⟩ := goodComment_parts e.comment hc
  unfold entryLines
  rw [if_neg (by
    rw [plain_not_contains e.value '\n' vplain (by decide)]
    simp)]
  rw [hctrim]
  unfold lineOf cmtPart
  rfl

/-- One good statement: processing `(0, codeStr)` with `lastIdx = 0` and
trailing comment `c` commits exactly `name ↦ (value, comment)`. -/
theorem processStmt_good (st : PState) (n v c : String) (codeStr : String)
    (hn : goodName n = true) (hv : goodValue v = true)
    (hstrip : pyStrip codeStr = stmtOf n v) :
    processStmt c 0 st (0, codeStr) =
      { st with result := dictSet st.result n ⟨v, c⟩ } := by
  obtain ⟨vplain, hvtrim⟩ := goodValue_parts v hv
  obtain ⟨_, hnne, hntrim, _⟩ := goodName_parts n hn
  unfold processStmt
  dsimp only
  rw [hstrip]
  rw [if_neg (by
    intro hcon
    rcases hcon with h1 | h2
    · exact stmtOf_ne_empty n v hn h1
    · rw [stmtOf_contains_eq n v] at h2
      cases h2)]
  rw [splitFirstEq_stmtOf n v hn]
  dsimp only
  have hname : pyStrip (n ++ " ") = n := pyStrip_name_space n hntrim hnne
  have hvalue : pyStrip (if v = "" then "" else " " ++ v) = v := by
    by_cases hvv : v = ""
    · rw [if_pos hvv, pyStrip_empty, hvv]
    · rw [if_neg hvv]
      exact pyStrip_space_value v hvtrim
  rw [hname, hvalue]
  rw [if_neg (by rw [not_startsWith_quote v vplain]; simp)]
  rw [if_pos rfl]

/-- A good single-line entry line is processed (outside multi-line mode) to
exactly one committed `name ↦ (value, comment)` entry. -/
theorem processLine_good (st : PState) (hst : st.inMulti = false)
    (n v c : String) (hn : goodName n = true) (hv : goodValue v = true)
    (hc : goodComment c = true) :
    processLine st (lineOf n v c) =
      { st with result := dictSet st.result n ⟨v, c⟩ } := by
  obtain ⟨nplain, hnne, hntrim, hneq⟩ := goodName_parts n hn
  obtain ⟨vplain, hvtrim⟩ := goodValue_parts v hv
  obtain ⟨cplain, hctrim⟩ := goodComment_parts c hc
  obtain ⟨nh, nt, hnd, hnh⟩ := trimmed_head n hntrim (ne_empty_data n hnne)
  have hnhp : plainChar nh = true :=
    List.all_eq_true.mp nplain nh (by rw [hnd]; exact List.mem_cons_self nh nt)
  have hnotin : ¬(st.inMulti = true) := by rw [hst]; simp
  by_cases hzero : c = "" ∧ v = ""
  · obtain ⟨hcc, hvv⟩ := hzero
    subst hcc
    subst hvv
    have hd1 : (n ++ " =").data = nh :: (nt ++ [' ', '=']) := by
      rw [String.data_append, hnd]
      rfl
    have hsne : ¬(n ++ " =") = "" := by
      intro he
      have hdd := congrArg String.data he
      rw [hd1] at hdd
      cases hdd
    have hsh : pyStartsWith (n ++ " =") "#" = false := by
      unfold pyStartsWith
      rw [hd1, show ("#".data) = ['#'] from rfl, singleton_isPrefixOf_cons]
      exact beq_comm_false nh '#' (plain_ne nh '#' hnhp (by decide))
    have hsb : pyStartsWith (n ++ " =") "!" = false := by
      unfold pyStartsWith
      rw [hd1, show ("!".data) = ['!'] from rfl, singleton_isPrefixOf_cons]
      exact beq_comm_false nh '!' (plain_ne nh '!' hnhp (by decide))
    have hceq : containsChar (n ++ " =") '=' = true := by
      apply List.elem_iff.mpr
      rw [hd1]
      exact List.mem_cons_of_mem nh (List.mem_append.mpr (Or.inr (by decide)))
    have hfree : ∀ ch ∈ (n ++ " =").data,
        ((ch == '"') || (ch == '#') || (ch == '!')) = false := by
      intro ch hch
      rw [String.data_append] at hch
      exact free_append _ _ _ (scan_free_of_plain n nplain) (by decide) ch hch
    have hfree2 : ∀ ch ∈ (n ++ " =").data,
        ((ch == '"') || (ch == ';')) = false := by
      intro ch hch
      rw [String.data_append] at hch
      exact free_append _ _ _ (stmt_free_of_plain n nplain) (by decide) ch hch
    have harg : pyStrip (n ++ " =") = pyStrip ⟨n.data ++ ' ' :: '=' :: []⟩ :=
      congrArg pyStrip (stringDataExt _ _ (by rw [String.data_append]))
    have hstrip0 : pyStrip (n ++ " =") = stmtOf n "" := by
      rw [harg, strip_name_eq_spaces n hn [] (by intro x hx; cases hx)]
      unfold stmtOf
      rw [if_pos rfl]
    unfold processLine
    dsimp only
    rw [pyStrip_lineOf_empty n hn]
    rw [if_neg hnotin]
    rw [if_neg (by
      intro hcon
      rcases hcon with h | h | h
      · exact hsne h
      · rw [hsh] at h; cases h
      · rw [hsb] at h; cases h)]
    rw [if_neg (by rw [hceq]; simp)]
    rw [splitComment_free _ hfree]
    dsimp only
    rw [splitStatements_single _ hfree2]
    rw [show ([n ++ " ="] : List String).enum = [(0, n ++ " =")] from rfl]
    rw [show ([n ++ " ="] : List String).length - 1 = 0 from rfl]
    rw [List.foldl_cons, List.foldl_nil]
    exact processStmt_good st n "" "" (n ++ " =") hn (by decide) hstrip0
  · have hd2 : (lineOf n v c).data =
        nh :: (nt ++ ' ' :: '=' :: ' ' :: (v.data ++ (cmtPart c).data)) := by
      rw [lineOf_data, hnd]
      rfl
    have hsne : ¬(lineOf n v c) = "" := by
      intro he
      have hdd := congrArg String.data he
      rw [hd2] at hdd
      cases hdd
    have hsh : pyStartsWith (lineOf n v c) "#" = false := by
      unfold pyStartsWith
      rw [hd2, show ("#".data) = ['#'] from rfl, singleton_isPrefixOf_cons]
      exact beq_comm_false nh '#' (plain_ne nh '#' hnhp (by decide))
    have hsb : pyStartsWith (lineOf n v c) "!" = false := by
      unfold pyStartsWith
      rw [hd2, show ("!".data) = ['!'] from rfl, singleton_isPrefixOf_cons]
      exact beq_comm_false nh '!' (plain_ne nh '!' hnhp (by decide))
    have hceq : containsChar (lineOf n v c) '=' = true := by
      apply List.elem_iff.mpr
      rw [hd2]
      exact List.mem_cons_of_mem nh (List.mem_append.mpr (Or.inr (by simp)))
    unfold processLine
    dsimp only
    rw [pyStrip_lineOf n v c hn hv hc hzero]
    rw [if_neg hnotin]
    rw [if_neg (by
      intro hcon
      rcases hcon with h | h | h
      · exact hsne h
      · rw [hsh] at h; cases h
      · rw [hsb] at h; cases h)]
    rw [if_neg (by rw [hceq]; simp)]
    by_cases hcc : c = ""
    · subst hcc
      have hvv : v ≠ "" := fun h => hzero ⟨rfl, h⟩
      have hcd : (cmtPart "").data = ([] : List Char) := by
        unfold cmtPart
        rw [if_neg (by simp)]
      have hfree : ∀ ch ∈ (lineOf n v "").data,
          ((ch == '"') || (ch == '#') || (ch == '!')) = false := by
        intro ch hch
        rw [lineOf_data, hcd, List.append_nil] at hch
        exact free_append _ _ _ (scan_free_of_plain n nplain)
          (free_cons _ _ _ (by decide) (free_cons _ _ _ (by decide)
            (free_cons _ _ _ (by decide)
              (scan_free_of_plain v vplain)))) ch hch
      have hfree2 : ∀ ch ∈ (lineOf n v "").data,
          ((ch == '"') || (ch == ';')) = false := by
        intro ch hch
        rw [lineOf_data, hcd, List.append_nil] at hch
        exact free_append _ _ _ (stmt_free_of_plain n nplain)
          (free_cons _ _ _ (by decide) (free_cons _ _ _ (by decide)
            (free_cons _ _ _ (by decide)
              (stmt_free_of_plain v vplain)))) ch hch
      rw [splitComment_free _ hfree]
      dsimp only
      rw [splitStatements_single _ hfree2]
      rw [show ([lineOf n v ""] : List String).enum =
        [(0, lineOf n v "")] from rfl]
      rw [show ([lineOf n v ""] : List String).length - 1 = 0 from rfl]
      rw [List.foldl_cons, List.foldl_nil]
      have hls : lineOf n v "" = stmtOf n v := by
        unfold lineOf stmtOf cmtPart
        rw [if_neg (by simp), if_neg hvv]
        apply stringDataExt
        simp [String.data_append]
      have hstripv : pyStrip (lineOf n v "") = stmtOf n v := by
        rw [pyStrip_lineOf n v "" hn hv (by decide) hzero, hls]
      exact processStmt_good st n v "" _ hn hv hstripv
    · rw [splitComment_lineOf_ne n v c hn hv hc hcc]
      dsimp only
      have hfree2 : ∀ ch ∈
          (⟨n.data ++ ' ' :: '=' :: ' ' :: (v.data ++ [' ', ' '])⟩ :
            String).data,
          ((ch == '"') || (ch == ';')) = false := by
        intro ch hch
        exact free_append _ _ _ (stmt_free_of_plain n nplain)
          (free_cons _ _ _ (by decide) (free_cons _ _ _ (by decide)
            (free_cons _ _ _ (by decide)
              (free_append _ _ _ (stmt_free_of_plain v vplain)
                (by decide))))) ch hch
      rw [splitStatements_single _ hfree2]
      rw [show ([(⟨n.data ++ ' ' :: '=' :: ' ' :: (v.data ++ [' ', ' '])⟩ :
        String)] : List String).enum =
        [(0, (⟨n.data ++ ' ' :: '=' :: ' ' :: (v.data ++ [' ', ' '])⟩ :
          String))] from rfl]
      rw [show ([(⟨n.data ++ ' ' :: '=' :: ' ' :: (v.data ++ [' ', ' '])⟩ :
        String)] : List String).length - 1 = 0 from rfl]
      rw [List.foldl_cons, List.foldl_nil]
      exact processStmt_good st n v c _ hn hv (strip_codeL n v hn hv)

theorem bs_free_of_plain (s : String) (h : plainStr s = true) :
    ∀ ch ∈ s.data, (ch == '\\') = false := by
  intro ch hch
  exact plain_ne ch '\\' (List.all_eq_true.mp h ch hch) (by decide)

theorem nb_free_of_plain (s : String) (h : plainStr s = true) :
    ∀ ch ∈ s.data, isLineBreak ch = false := by
  intro ch hch
  exact plain_not_break ch (List.all_eq_true.mp h ch hch)

theorem lineOf_free (p : Char → Bool) (n v c : String)
    (hn : ∀ ch ∈ n.data, p ch = false) (hv : ∀ ch ∈ v.data, p ch = false)
    (hc : ∀ ch ∈ c.data, p ch = false)
    (hsp : p ' ' = false) (heq : p '=' = false) (hhash : p '#' = false) :
    ∀ ch ∈ (lineOf n v c).data, p ch = false := by
  intro ch hch
  rw [lineOf_data] at hch
  refine free_append _ _ _ hn
    (free_cons _ _ _ hsp (free_cons _ _ _ heq (free_cons _ _ _ hsp
      (free_append _ _ _ hv ?_)))) ch hch
  intro ch2 hch2
  by_cases hcc : c = ""
  · rw [hcc, show (cmtPart "").data = ([] : List Char) from by
      unfold cmtPart; rw [if_neg (by simp)]] at hch2
    cases hch2
  · rw [cmtPart_data_ne c hcc] at hch2
    exact free_cons _ _ _ hsp (free_cons _ _ _ hsp (free_cons _ _ _ hhash
      (free_cons _ _ _ hsp hc))) ch2 hch2

theorem lineOf_all_nonbreak (n v c : String) (hn : plainStr n = true)
    (hv : plainStr v = true) (hcp : plainStr c = true) :
    (lineOf n v c).data.all (fun ch => !isLineBreak ch) = true := by
  rw [List.all_eq_true]
  intro ch hch
  rw [lineOf_free isLineBreak n v c (nb_free_of_plain n hn)
    (nb_free_of_plain v hv) (nb_free_of_plain c hcp)
    (by decide) (by decide) (by decide) ch hch]
  rfl

theorem lineOf_no_bs (n v c : String) (hn : plainStr n = true)
    (hv : plainStr v = true) (hcp : plainStr c = true) :
    ∀ ch ∈ (lineOf n v c).data, (ch == '\\') = false :=
  lineOf_free _ n v c (bs_free_of_plain n hn) (bs_free_of_plain v hv)
    (bs_free_of_plain c hcp) (by decide) (by decide) (by decide)

theorem lineOf_ne_empty (n v c : String) (hn : goodName n = true) :
    lineOf n v c ≠ "" := by
  obtain ⟨_, hnne, hntrim, _⟩ := goodName_parts n hn
  obtain ⟨nh, nt, hnd, _⟩ := trimmed_head n hntrim (ne_empty_data n hnne)
  intro he
  have hdd := congrArg String.data he
  rw [lineOf_data, hnd] at hdd
  simp at hdd

/-- Folding `processLine` over serialized good entries commits them in
order, leaving multi-line mode off. -/
theorem foldl_processLine_good :
    ∀ (doc : List (String × ConfigEntry)) (st : PState),
      st.inMulti = false →
      (∀ p ∈ doc, goodName p.1 = true ∧ goodValue p.2.value = true ∧
        goodComment p.2.comment = true) →
      (doc.map (fun p => lineOf p.1 p.2.value p.2.comment)).foldl
        processLine st =
        { st with result :=
            doc.foldl (fun r p => dictSet r p.1 p.2) st.result } := by
  intro doc
  induction doc with
  | nil => intro st _ _; rfl
  | cons p doc ih =>
    intro st hst h
    obtain ⟨hn, hv, hc⟩ := h p (List.mem_cons_self p doc)
    rw [List.map_cons, List.foldl_cons,
      processLine_good st hst p.1 p.2.value p.2.comment hn hv hc,
      ih _ (by exact hst) (fun q hq => h q (List.mem_cons_of_mem p hq))]
    rfl

/-- Folding `dictSet` over pairwise-fresh keys appends the pairs. -/
theorem foldl_dictSet_fresh :
    ∀ (doc acc : List (String × ConfigEntry)),
      (doc.map Prod.fst).Nodup →
      (∀ p ∈ doc, acc.any (fun q => q.1 == p.1) = false) →
      doc.foldl (fun r p => dictSet r p.1 p.2) acc = acc ++ doc := by
  intro doc
  induction doc with
  | nil => intro acc _ _; simp
  | cons p doc ih =>
    intro acc hnd hfresh
    rw [List.map_cons] at hnd
    rw [List.foldl_cons,
      dictSet_absent acc p.1 p.2 (hfresh p (List.mem_cons_self p doc)),
      ih (acc ++ [p]) (List.nodup_cons.mp hnd).2 ?_]
    · simp
    · intro q hq
      have hne : ¬ p.1 = q.1 := by
        intro he
        exact (List.nodup_cons.mp hnd).1
          (he ▸ List.mem_map_of_mem Prod.fst hq)
      simp [List.any_append, hfresh q (List.mem_cons_of_mem p hq), hne]

/-- C1 (amended): the parse/serialize round trip holds for documents of
single-line entries whose names, values and comments are plain trimmed
strings — no quote, comment marker (`#`/`!`), semicolon, backslash or
line-break character, internal blanks are plain spaces — with every name
non-empty, free of `=`, and pairwise distinct: for every such document,
`parse_config_text(config_dict_to_text(doc))` returns exactly `doc` in
every `(name, value, comment)` triple.  The claim's original form fails
beyond the quoting asymmetry it documents: a single-line quoted value with
an embedded comment marker (e.g. parsed from `A = "x #y"`) serializes
unquoted, so re-parsing truncates the value at the marker. -/
theorem c1_config_roundtrip (doc : List (String × ConfigEntry))
    (hnd : (doc.map Prod.fst).Nodup)
    (hgood : ∀ p ∈ doc, goodName p.1 = true ∧ goodValue p.2.value = true ∧
      goodComment p.2.comment = true) :
    parseConfigText (configDictToText doc) = doc := by
  have hmap : (doc.map (fun p => entryLines p.1 p.2)) =
      doc.map (fun p => [lineOf p.1 p.2.value p.2.comment]) :=
    List.map_congr_left (fun p hp =>
      entryLines_good p.1 p.2 (hgood p hp).2.1 (hgood p hp).2.2)
  unfold configDictToText
  rw [hmap, flatten_singletons]
  have hsj : splitlines
      (joinNl (doc.map (fun p => lineOf p.1 p.2.value p.2.comment))) =
      doc.map (fun p => lineOf p.1 p.2.value p.2.comment) := by
    apply splitlines_join
    intro l hl
    rcases List.mem_map.mp hl with ⟨p, hp, rfl⟩
    obtain ⟨hn, hv, hc⟩ := hgood p hp
    exact ⟨lineOf_all_nonbreak _ _ _ (goodName_parts _ hn).1
      (goodValue_parts _ hv).1 (goodComment_parts _ hc).1,
      lineOf_ne_empty _ _ _ hn⟩
  have hmc : mergeCont
      (doc.map (fun p => lineOf p.1 p.2.value p.2.comment)) none =
      doc.map (fun p => lineOf p.1 p.2.value p.2.comment) := by
    apply mergeCont_id
    intro l hl
    rcases List.mem_map.mp hl with ⟨p, hp, rfl⟩
    obtain ⟨hn, hv, hc⟩ := hgood p hp
    exact no_bs_not_endsWith _ (lineOf_no_bs _ _ _ (goodName_parts _ hn).1
      (goodValue_parts _ hv).1 (goodComment_parts _ hc).1)
  unfold parseConfigText
  dsimp only
  unfold logicalLines
  rw [hsj, hmc,
    foldl_processLine_good doc ⟨[], false, none, [], ""⟩ rfl hgood,
    if_neg (fun h => Bool.false_ne_true h),
    foldl_dictSet_fresh doc [] hnd (fun p _ => rfl)]
  simp

/-- Witness for C1 on a concrete two-entry document. -/
theorem c1_witness :
    ((([("A", ⟨"1", "note"⟩), ("B", ⟨"", ""⟩)] :
        List (String × ConfigEntry)).map Prod.fst).Nodup ∧
      (∀ p ∈ ([("A", ⟨"1", "note"⟩), ("B", ⟨"", ""⟩)] :
          List (String × ConfigEntry)),
        goodName p.1 = true ∧ goodValue p.2.value = true ∧
          goodComment p.2.comment = true)) ∧
    parseConfigText (configDictToText
        ([("A", ⟨"1", "note"⟩), ("B", ⟨"", ""⟩)] :
          List (String × ConfigEntry))) =
      [("A", ⟨"1", "note"⟩), ("B", ⟨"", ""⟩)] :=
  ⟨⟨by decide, by decide⟩,
    c1_config_roundtrip [("A", ⟨"1", "note"⟩), ("B", ⟨"", ""⟩)]
      (by decide) (by decide)⟩

end MoWrap
